import Mathlib

/-!
# Shortest-path search of `src/components/DjikstraAlgo.js`

A shallow embedding of `dijkstra`, `getAllNodes`, `sortNodesByDistance`,
`updateUnvisitedNeighbors`, `getUnvisitedNeighbors` and
`getNodesInShortestPathOrder`.

* A cell object is referred to by its position in the grid (`Pos`); the grid
  (`Grid`) is the heap holding the mutable fields of every cell, and every
  operation that mutates cells in place returns the new grid.
* `Infinity` is `none` in `Option Nat`; `null` is `none` in `Option Pos`.
* A property access on `undefined` (a `TypeError`) is `Fault.typeError`.
* `while` loops run on a fuel counter; exhausting it is `Fault.outOfFuel`.
-/

namespace MapAlgo

/-! ## Definitions -/

/-- Reference to a cell object: the position at which the grid holds it. -/
abbrev Pos := Nat × Nat

/-- A cell object with the fields the search reads and writes. -/
structure Node where
  row : Nat
  col : Nat
  distance : Option Nat
  isVisited : Bool
  isWall : Bool
  previousNode : Option Pos

deriving DecidableEq, Repr

/-- The grid: an array of rows of cells. -/
abbrev Grid := List (List Node)

/-- Abnormal outcomes of the embedded code. -/
inductive Fault where
  | typeError
  | outOfFuel

deriving DecidableEq, Repr

/-- The cell stored at `grid[p.1][p.2]`, if both indices are in range. -/
def getNode (grid : Grid) (p : Pos) : Option Node :=
  match grid[p.1]? with
  | some row => row[p.2]?
  | none => none

/-- Apply `f` to the element at index `i` of a list (no effect out of range). -/
def modifyAt {α : Type} (f : α → α) : Nat → List α → List α
  | _, [] => []
  | 0, a :: l => f a :: l
  | i + 1, a :: l => a :: modifyAt f i l

/-- In-place field assignment on the cell referred to by `p`. -/
def modifyNode (grid : Grid) (p : Pos) (f : Node → Node) : Grid :=
  modifyAt (modifyAt f p.2) p.1 grid

/-- The field `distance` of the cell referred to by `p` (`none`, as for
`Infinity`, when `p` is no cell of the grid; the search only reads cells of
the grid). -/
def distanceOf (grid : Grid) (p : Pos) : Option Nat :=
  match getNode grid p with
  | some n => n.distance
  | none => none

/-- The field `isVisited` of the cell referred to by `p`. -/
def isVisitedAt (grid : Grid) (p : Pos) : Bool :=
  match getNode grid p with
  | some n => n.isVisited
  | none => false

/-- The field `isWall` of the cell referred to by `p`. -/
def isWallAt (grid : Grid) (p : Pos) : Bool :=
  match getNode grid p with
  | some n => n.isWall
  | none => false

/-- The field `previousNode` of the cell referred to by `p`. -/
def previousOf (grid : Grid) (p : Pos) : Option Pos :=
  match getNode grid p with
  | some n => n.previousNode
  | none => none

/-- References to the cells of row number `r`, which has `n` cells. -/
def rowNodes (r n : Nat) : List Pos :=
  (List.range n).map (fun c => (r, c))

/-- The inner and outer `for ... of` loops of `getAllNodes`, from row `r` on. -/
def getAllNodesFrom : Nat → Grid → List Pos
  | _, [] => []
  | r, row :: rest => rowNodes r row.length ++ getAllNodesFrom (r + 1) rest

/-- `getAllNodes(grid)`: every cell, row by row. -/
def getAllNodes (grid : Grid) : List Pos :=
  getAllNodesFrom 0 grid

/-- The comparator `nodeA.distance - nodeB.distance` is negative.
`Infinity - Infinity` is `NaN`, which `sort` takes as `+0`. -/
def distLT : Option Nat → Option Nat → Bool
  | some a, some b => decide (a < b)
  | some _, none => true
  | none, _ => false

/-- Insert `a`, which stood before every element of the (sorted) list, keeping
it before the elements that do not compare strictly smaller. -/
def insertByDistance (grid : Grid) (a : Pos) : List Pos → List Pos
  | [] => [a]
  | b :: l =>
    if distLT (distanceOf grid b) (distanceOf grid a) then b :: insertByDistance grid a l
    else a :: b :: l

/-- `sortNodesByDistance(unvisitedNodes)`: `Array.prototype.sort` is a stable
sort; its result (a sorted permutation in which cells of equal distance keep
their order) is computed here by insertion. -/
def sortNodesByDistance (grid : Grid) : List Pos → List Pos
  | [] => []
  | a :: l => insertByDistance grid a (sortNodesByDistance grid l)

/-- The statement `if (cond) neighbors.push(grid[p.1][p.2])`: the references it
pushes.  Reading an element of a missing row throws, and an `undefined` element
makes the callback of the later `filter` throw. -/
def pushNeighbor (cond : Bool) (grid : Grid) (p : Pos) : Except Fault (List Pos) :=
  if cond then
    match getNode grid p with
    | some _ => .ok [p]
    | none => .error .typeError
  else .ok []

/-- The row `grid[0]`, whose `length` is read. -/
def firstRow (grid : Grid) : Except Fault (List Node) :=
  match grid[0]? with
  | some row0 => .ok row0
  | none => .error .typeError

/-- `getUnvisitedNeighbors(node, grid)`. -/
def getUnvisitedNeighbors (node : Node) (grid : Grid) : Except Fault (List Pos) :=
  let col := node.col
  let row := node.row
  (pushNeighbor (decide (row > 0)) grid (row - 1, col)).bind fun up =>
  (pushNeighbor (decide (row < grid.length - 1)) grid (row + 1, col)).bind fun down =>
  (pushNeighbor (decide (col > 0)) grid (row, col - 1)).bind fun left =>
  (firstRow grid).bind fun row0 =>
  (pushNeighbor (decide (col < row0.length - 1)) grid (row, col + 1)).bind fun right =>
  .ok ((up ++ down ++ left ++ right).filter
    (fun p => !isVisitedAt grid p && !isWallAt grid p))

/-- One iteration of the `for` loop of `updateUnvisitedNeighbors`. -/
def relaxNeighbor (node : Pos) (grid : Grid) (neighbor : Pos) : Grid :=
  match distanceOf grid node with
  | none => grid
  | some d =>
    if distLT (some (d + 1)) (distanceOf grid neighbor) then
      modifyNode grid neighbor
        (fun n => { n with distance := some (d + 1), previousNode := some node })
    else grid

/-- `updateUnvisitedNeighbors(node, grid)`. -/
def updateUnvisitedNeighbors (node : Pos) (grid : Grid) : Except Fault Grid :=
  match getNode grid node with
  | none => .error .typeError
  | some n =>
    match getUnvisitedNeighbors n grid with
    | .error e => .error e
    | .ok unvisitedNeighbors => .ok (unvisitedNeighbors.foldl (relaxNeighbor node) grid)

/-- The `while (unvisitedNodes.length)` loop of `dijkstra`. -/
def dijkstraLoop : Nat → Grid → List Pos → List Pos → Pos →
    Except Fault (List Pos × Grid)
  | 0, grid, unvisitedNodes, visitedNodesInOrder, _ =>
    match unvisitedNodes with
    | [] => .ok (visitedNodesInOrder, grid)
    | _ :: _ => .error .outOfFuel
  | fuel + 1, grid, unvisitedNodes, visitedNodesInOrder, endNode =>
    match sortNodesByDistance grid unvisitedNodes with
    | [] => .ok (visitedNodesInOrder, grid)
    | closestNode :: rest =>
      match distanceOf grid closestNode with
      | none => .ok (visitedNodesInOrder, grid)
      | some _ =>
        let grid1 := modifyNode grid closestNode (fun n => { n with isVisited := true })
        let visited1 := visitedNodesInOrder ++ [closestNode]
        if closestNode = endNode then .ok (visited1, grid1)
        else
          match updateUnvisitedNeighbors closestNode grid1 with
          | .error e => .error e
          | .ok grid2 => dijkstraLoop fuel grid2 rest visited1 endNode

/-- `dijkstra(grid, startNode, endNode)`: the visited cells in order, and the
grid as the search leaves it. -/
def dijkstra (grid : Grid) (startNode endNode : Pos) : Except Fault (List Pos × Grid) :=
  let unvisitedNodes := getAllNodes grid
  let grid0 := modifyNode grid startNode (fun n => { n with distance := some 0 })
  dijkstraLoop unvisitedNodes.length grid0 unvisitedNodes [] endNode

/-- The `while (currentNode !== null)` loop of `getNodesInShortestPathOrder`. -/
def shortestPathLoop : Nat → Grid → Option Pos → List Pos → Except Fault (List Pos)
  | _, _, none, nodesInShortestPathOrder => .ok nodesInShortestPathOrder
  | 0, _, some _, _ => .error .outOfFuel
  | fuel + 1, grid, some currentNode, nodesInShortestPathOrder =>
    match getNode grid currentNode with
    | none => .error .typeError
    | some n => shortestPathLoop fuel grid n.previousNode (currentNode :: nodesInShortestPathOrder)

/-- Number of cells of the grid. -/
def cellCount (grid : Grid) : Nat :=
  (getAllNodes grid).length

/-- `getNodesInShortestPathOrder(finishNode)`, on the grid as the search left
it.  The fuel is one more than the number of cells: a chain of predecessors
that is still running after that many steps has repeated a cell and runs
forever. -/
def getNodesInShortestPathOrder (grid : Grid) (finishNode : Pos) : Except Fault (List Pos) :=
  shortestPathLoop (cellCount grid + 1) grid (some finishNode) []

/-- A cell in the state in which a search expects it. -/
def mkNode (r c : Nat) (w : Bool) : Node :=
  { row := r, col := c, distance := none, isVisited := false, isWall := w, previousNode := none }

/-- A grid in fresh search state with the given wall mask. -/
def mkGrid (walls : List (List Bool)) : Grid :=
  walls.enum.map (fun rw => rw.2.enum.map (fun cw => mkNode rw.1 cw.1 cw.2))

/-- `grid[0].length`, the number of columns (0 for the empty grid). -/
def gridWidth (g : Grid) : Nat := (g.headD []).length

/-- A rectangular grid in fresh search state: every row has the width of the
first one, and the cell at row `r`, column `c` has `row = r`, `col = c`,
`distance = Infinity`, `isVisited = false`, `previousNode = null`. -/
def FreshGrid (g : Grid) : Prop :=
  (∀ row ∈ g, row.length = gridWidth g) ∧
  ∀ r < g.length, ∀ c < gridWidth g, ∃ w, getNode g (r, c) = some (mkNode r c w)

instance (g : Grid) : Decidable (FreshGrid g) := by
  unfold FreshGrid; infer_instance

/-- Orthogonal adjacency of two positions. -/
def Adjacent (p q : Pos) : Prop :=
  (p.2 = q.2 ∧ (p.1 = q.1 + 1 ∨ q.1 = p.1 + 1)) ∨
  (p.1 = q.1 ∧ (p.2 = q.2 + 1 ∨ q.2 = p.2 + 1))

instance (p q : Pos) : Decidable (Adjacent p q) := by
  unfold Adjacent; infer_instance

/-- One move of a path: from `p` to an orthogonally adjacent cell `q` of the
grid that is not a wall. -/
def Hop (g : Grid) (p q : Pos) : Prop :=
  Adjacent p q ∧ q ∈ getAllNodes g ∧ isWallAt g q = false

instance (g : Grid) (p q : Pos) : Decidable (Hop g p q) := by
  unfold Hop; infer_instance

/-- Every two consecutive cells of the sequence are one move apart. -/
def HopChain (g : Grid) : List Pos → Prop
  | [] => True
  | [_] => True
  | a :: b :: l => Hop g a b ∧ HopChain g (b :: l)

/-- Deciding `HopChain`, move by move. -/
def decHopChain (g : Grid) : (l : List Pos) → Decidable (HopChain g l)
  | [] => isTrue trivial
  | [_] => isTrue trivial
  | a :: b :: l =>
    match decHopChain g (b :: l) with
    | isTrue h =>
      if h' : Hop g a b then isTrue ⟨h', h⟩ else isFalse (fun hc => h' hc.1)
    | isFalse h => isFalse (fun hc => h hc.2)

instance (g : Grid) (l : List Pos) : Decidable (HopChain g l) := decHopChain g l

/-- A path from `s` to `t`: a sequence of cells that begins with `s`, ends with
`t`, moves between orthogonally adjacent cells and enters only non-wall cells
of the grid.  Its number of hops is its length minus one. -/
def IsPath (g : Grid) (s t : Pos) (path : List Pos) : Prop :=
  path.head? = some s ∧ path.getLast? = some t ∧ HopChain g path

instance (g : Grid) (s t : Pos) (path : List Pos) : Decidable (IsPath g s t path) := by
  unfold IsPath; infer_instance

/-- The cell `t` can be reached from `s`. -/
def Reachable (g : Grid) (s t : Pos) : Prop := ∃ path, IsPath g s t path

/-- The cell `t` is reached from `s` in exactly `n` hops. -/
inductive Walk (g : Grid) (s : Pos) : Nat → Pos → Prop
  | start : Walk g s 0 s
  | hop {n : Nat} {p q : Pos} : Walk g s n p → Hop g p q → Walk g s (n + 1) q

/-- Row-major order of cell references. -/
def rowMajorLT (p q : Pos) : Prop := p.1 < q.1 ∨ (p.1 = q.1 ∧ p.2 < q.2)

instance (p q : Pos) : Decidable (rowMajorLT p q) := by
  unfold rowMajorLT; infer_instance

/-- Manhattan distance of two positions. -/
def manhattan (p q : Pos) : Nat :=
  (p.1 - q.1) + (q.1 - p.1) + ((p.2 - q.2) + (q.2 - p.2))

/-- Each cell of the sequence is the `previousNode` of the next one, and its
distance is strictly smaller. -/
def PredChain (g : Grid) : List Pos → Prop
  | [] => True
  | [_] => True
  | a :: b :: l =>
    (previousOf g b = some a ∧
      ∃ da db, distanceOf g a = some da ∧ distanceOf g b = some db ∧ da < db) ∧
    PredChain g (b :: l)

/-- The 3×3 grid without walls, in fresh search state. -/
def grid3x3 : Grid :=
  mkGrid [[false, false, false], [false, false, false], [false, false, false]]

/-- The 3×3 grid whose middle row is all wall, in fresh search state. -/
def grid3x3Walled : Grid :=
  mkGrid [[false, false, false], [true, true, true], [false, false, false]]

/-- The 1×3 grid without walls, in fresh search state. -/
def grid1x3 : Grid := mkGrid [[false, false, false]]

/-- The 3×4 grid without walls, in fresh search state. -/
def grid3x4 : Grid :=
  mkGrid [[false, false, false, false], [false, false, false, false],
    [false, false, false, false]]

/-- The orthogonal neighbours of `c` in row-major order: up, left, right, down. -/
def neighboursRowMajor (c : Pos) : List Pos :=
  (if c.1 > 0 then [(c.1 - 1, c.2)] else []) ++
  (if c.2 > 0 then [(c.1, c.2 - 1)] else []) ++
  [(c.1, c.2 + 1), (c.1 + 1, c.2)]

/-- The cells the breadth-first search enqueues when it dequeues `c`: the
neighbours of `c` in row-major order that are cells of the grid, are not walls
and are not yet discovered. -/
def freshNeighbours (g : Grid) (discovered : List Pos) (c : Pos) : List Pos :=
  (neighboursRowMajor c).filter
    (fun p => decide (p ∈ getAllNodes g) && !isWallAt g p && !decide (p ∈ discovered))

/-- The breadth-first search the specification compares `dijkstra` with: a
FIFO queue; dequeuing a cell appends it to the visit order and, unless it is
the end cell, enqueues its non-wall neighbours in the grid that are not yet
discovered, in row-major order, recording the dequeued cell as the one that
enqueued them.  The search stops when the end cell is dequeued or the queue is
empty.  It returns the visit order and the record of who enqueued whom. -/
def specBfsLoop : Nat → Grid → Pos → List Pos → List Pos → List (Pos × Pos) → List Pos →
    Option (List Pos × List (Pos × Pos))
  | _, _, _, [], _, enqueuedBy, order => some (order, enqueuedBy)
  | 0, _, _, _ :: _, _, _, _ => none
  | fuel + 1, g, e, c :: queue, discovered, enqueuedBy, order =>
    if c = e then some (order ++ [c], enqueuedBy)
    else
      let fresh := freshNeighbours g discovered c
      specBfsLoop fuel g e (queue ++ fresh) (discovered ++ fresh)
        (enqueuedBy ++ fresh.map (fun p => (p, c))) (order ++ [c])

/-- Breadth-first search from `s` towards `e`, with the start discovered and
alone in the queue; every cell is dequeued at most once, so the number of cells
is fuel enough. -/
def specBfs (g : Grid) (s e : Pos) : Option (List Pos × List (Pos × Pos)) :=
  specBfsLoop (cellCount g) g e [s] [s] [] []

/-- The cell that enqueued `p`, if `p` was enqueued by one. -/
def enqueuerOf (enqueuedBy : List (Pos × Pos)) (p : Pos) : Option Pos :=
  match enqueuedBy.find? (fun x => decide (x.1 = p)) with
  | some x => some x.2
  | none => none

/-- The order of discovery of two cells `a`, `b` of a sequence: the
`previousNode` of `a` stands before the `previousNode` of `b` in the sequence,
or both have the same `previousNode` and `a` comes before `b` in row-major
order. -/
def DiscoveredBefore (g : Grid) (visited : List Pos) (a b : Pos) : Prop :=
  ∃ pa pb, previousOf g a = some pa ∧ previousOf g b = some pb ∧
    (([pa, pb] : List Pos).Sublist visited ∨ (pa = pb ∧ rowMajorLT a b))

/-- Order of discovery in which the start stands before every cell. -/
def DiscOrder (g : Grid) (s : Pos) (visited : List Pos) (a b : Pos) : Prop :=
  a = s ∨ DiscoveredBefore g visited a b

/-- The claim about ties: cells of equal distance stand in row-major order. -/
def TiesRowMajor (g : Grid) (visited : List Pos) : Prop :=
  visited.Pairwise (fun a b => distanceOf g a = distanceOf g b → rowMajorLT a b)

/-- Row lengths of the grid. -/
def shape (g : Grid) : List Nat := g.map List.length

/-- `a` does not sort strictly after `b`: the comparator on `(b, a)` is not negative. -/
def DistLE (g : Grid) (a b : Pos) : Prop := distLT (distanceOf g b) (distanceOf g a) = false

/-- The reference has a finite distance. -/
def isFinite (g : Grid) (p : Pos) : Bool := (distanceOf g p).isSome

/-- The assignment `closestNode.isVisited = true`. -/
abbrev markVisited (g : Grid) (c : Pos) : Grid :=
  modifyNode g c (fun n => { n with isVisited := true })

/-- The two assignments of a successful relaxation. -/
abbrev setRelaxed (g : Grid) (c : Pos) (d : Nat) (p : Pos) : Grid :=
  modifyNode g p (fun n => { n with distance := some (d + 1), previousNode := some c })

/-- Both distances are finite and the first is at most the second. -/
def DistanceLE (g : Grid) (a b : Pos) : Prop :=
  ∃ da db, distanceOf g a = some da ∧ distanceOf g b = some db ∧ da ≤ db

/-- What every iteration of the loop keeps, on any grid. -/
structure OrderInv (g : Grid) (u v : List Pos) : Prop where
  visited : ∀ q ∈ v, isVisitedAt g q = true
  sorted : v.Pairwise (DistanceLE g)
  finite : ∀ q ∈ v, ∃ d, distanceOf g q = some d
  below : ∀ q ∈ v, ∀ p ∈ u, distLT (distanceOf g p) (distanceOf g q) = false

/-- The grid `g` has the cells of `g0` with the same static fields. -/
structure Frame (g0 g : Grid) : Prop where
  shape : shape g = shape g0
  static : ∀ p n, getNode g p = some n →
    n.row = p.1 ∧ n.col = p.2 ∧ n.isWall = isWallAt g0 p

/-- The candidates pushed by `getUnvisitedNeighbors` for the cell at `c`. -/
def candidates (g0 : Grid) (c : Pos) : List Pos :=
  (if c.1 > 0 then [(c.1 - 1, c.2)] else []) ++
  (if c.1 < g0.length - 1 then [(c.1 + 1, c.2)] else []) ++
  (if c.2 > 0 then [(c.1, c.2 - 1)] else []) ++
  (if c.2 < gridWidth g0 - 1 then [(c.1, c.2 + 1)] else [])

/-- The neighbour `q` of `c` is relaxed by the iteration that finalizes `c` at
distance `d`. -/
def Relaxed (g0 g : Grid) (c : Pos) (d : Nat) (q : Pos) : Prop :=
  Hop g0 c q ∧ isVisitedAt g q = false ∧ distLT (some (d + 1)) (distanceOf g q) = true

/-- What every iteration of the loop of `dijkstra` keeps when the search was
started on the fresh rectangular grid `g0` from `s`. -/
structure SearchInv (g0 : Grid) (s e : Pos) (g : Grid) (u v : List Pos) : Prop where
  frame : Frame g0 g
  perm : (v ++ u).Perm (getAllNodes g0)
  order : OrderInv g u v
  visitedIn : ∀ p, isVisitedAt g p = true → p ∈ v
  endNot : e ∉ v
  start : distanceOf g s = some 0
  prev : ∀ p q, previousOf g p = some q →
    q ∈ v ∧ Hop g0 q p ∧ ∃ d, distanceOf g q = some d ∧ distanceOf g p = some (d + 1)
  root : ∀ p d, distanceOf g p = some d → previousOf g p = none → p = s
  processed : ∀ q ∈ v, ∀ p, Hop g0 q p →
    ∃ d d', distanceOf g q = some d ∧ distanceOf g p = some d' ∧ d' ≤ d + 1

/-- How the loop of `dijkstra` is left: with no unvisited cell of finite
distance, or at the end cell. -/
inductive Exit (e : Pos) (g : Grid) (u v : List Pos) : List Pos × Grid → Prop
  | exhausted : (∀ p ∈ u, distanceOf g p = none) → Exit e g u v (v, g)
  | found (rest : List Pos) (d : Nat) : sortNodesByDistance g u = e :: rest →
      distanceOf g e = some d → Exit e g u v (v ++ [e], markVisited g e)

/-- The facts about the returned sequence and the grid as the search leaves
it, on a fresh rectangular grid `g0` searched from `s` towards `e`. -/
structure Final (g0 : Grid) (s e : Pos) (visited : List Pos) (g' : Grid) : Prop where
  frame : Frame g0 g'
  nodup : visited.Nodup
  inGrid : ∀ p ∈ visited, p ∈ getAllNodes g0
  marked : ∀ p, isVisitedAt g' p = true ↔ p ∈ visited
  start : distanceOf g' s = some 0
  prev : ∀ p q, previousOf g' p = some q →
    q ∈ visited ∧ q ≠ e ∧ Hop g0 q p ∧
      ∃ d, distanceOf g' q = some d ∧ distanceOf g' p = some (d + 1)
  root : ∀ p d, distanceOf g' p = some d → previousOf g' p = none → p = s
  finite : ∀ c ∈ visited, ∃ d, distanceOf g' c = some d
  lower : ∀ c ∈ visited, ∀ n, Walk g0 s n c → ∃ d, distanceOf g' c = some d ∧ d ≤ n
  exit : (e ∉ visited ∧ ∀ n p, Walk g0 s n p → p ∈ visited) ∨ visited.getLast? = some e

/-- The relation between the state of the loop of `dijkstra` and the state of
the breadth-first search of the specification. -/
structure SimInv (g0 : Grid) (s e : Pos) (g : Grid) (u v : List Pos)
    (queue discovered : List Pos) (enq : List (Pos × Pos)) (order : List Pos) : Prop where
  inv : SearchInv g0 s e g u v
  order_eq : order = v
  sorted_eq : sortNodesByDistance g u =
    queue ++ (getAllNodes g0).filter (fun p => !isFinite g p)
  queue_finite : ∀ p ∈ queue, isFinite g p = true
  disc : ∀ p, p ∈ discovered ↔ isFinite g p = true
  enq_eq : ∀ p, enqueuerOf enq p = previousOf g p
  disc_order : (v ++ queue).Pairwise (DiscOrder g s v)

/-! ## Theorems -/

/-! ## Lists: `modifyAt` -/

theorem length_modifyAt {α : Type} (f : α → α) (i : Nat) (l : List α) :
    (modifyAt f i l).length = l.length := by
  induction l generalizing i with
  | nil => cases i <;> rfl
  | cons a l ih => cases i <;> simp [modifyAt, ih]

theorem getElem?_modifyAt {α : Type} (f : α → α) (i j : Nat) (l : List α) :
    (modifyAt f i l)[j]? = if i = j then l[j]?.map f else l[j]? := by
  induction l generalizing i j with
  | nil => cases i <;> simp [modifyAt]
  | cons a l ih =>
    cases i with
    | zero => cases j <;> simp [modifyAt]
    | succ i =>
      cases j with
      | zero => simp [modifyAt]
      | succ j => simp [modifyAt, ih]

/-! ## Grid access -/

theorem getNode_modifyNode (g : Grid) (p q : Pos) (f : Node → Node) :
    getNode (modifyNode g p f) q = if p = q then (getNode g q).map f else getNode g q := by
  obtain ⟨pr, pc⟩ := p
  obtain ⟨qr, qc⟩ := q
  simp only [getNode, modifyNode, getElem?_modifyAt, Prod.mk.injEq]
  by_cases hr : pr = qr
  · subst hr
    cases hrow : g[pr]? with
    | none => simp
    | some row =>
      simp only [if_true, Option.map_some', getElem?_modifyAt, true_and]
  · simp [hr]

theorem shape_modifyNode (g : Grid) (p : Pos) (f : Node → Node) :
    shape (modifyNode g p f) = shape g := by
  obtain ⟨pr, pc⟩ := p
  simp only [shape, modifyNode]
  induction g generalizing pr with
  | nil => cases pr <;> rfl
  | cons row g ih =>
    cases pr with
    | zero => simp [modifyAt, length_modifyAt]
    | succ pr => simp [modifyAt, ih]

theorem length_eq_of_shape {g g' : Grid} (h : shape g' = shape g) : g'.length = g.length := by
  have := congrArg List.length h
  simpa [shape] using this

theorem row_length_of_shape {g g' : Grid} (h : shape g' = shape g) (i : Nat) :
    g'[i]?.map List.length = g[i]?.map List.length := by
  have := congrArg (fun l => l[i]?) h
  simpa [shape, List.getElem?_map] using this

theorem getAllNodesFrom_shape {g g' : Grid} (h : shape g' = shape g) (r : Nat) :
    getAllNodesFrom r g' = getAllNodesFrom r g := by
  induction g generalizing g' r with
  | nil =>
    cases g' with
    | nil => rfl
    | cons a l => simp [shape] at h
  | cons row g ih =>
    cases g' with
    | nil => simp [shape] at h
    | cons row' g' =>
      simp only [shape, List.map_cons, List.cons.injEq] at h
      simp only [getAllNodesFrom, h.1]
      rw [ih h.2]

theorem getAllNodes_shape {g g' : Grid} (h : shape g' = shape g) :
    getAllNodes g' = getAllNodes g := getAllNodesFrom_shape h 0

theorem isSome_getNode_of_shape {g g' : Grid} (h : shape g' = shape g) (p : Pos) :
    (getNode g' p).isSome = (getNode g p).isSome := by
  have h1 := row_length_of_shape h p.1
  simp only [getNode]
  cases hg : g[p.1]? with
  | none =>
    cases hg' : g'[p.1]? with
    | none => rfl
    | some row' => simp [hg, hg'] at h1
  | some row =>
    cases hg' : g'[p.1]? with
    | none => simp [hg, hg'] at h1
    | some row' =>
      simp only [hg, hg', Option.map_some', Option.some.injEq] at h1
      by_cases hc : p.2 < row.length
      · have hc' : p.2 < row'.length := h1 ▸ hc
        simp [List.getElem?_eq_getElem hc, List.getElem?_eq_getElem hc']
      · have hc' : ¬ p.2 < row'.length := h1 ▸ hc
        simp [List.getElem?_eq_none (Nat.le_of_not_lt hc),
          List.getElem?_eq_none (Nat.le_of_not_lt hc')]

theorem mem_rowNodes {r n : Nat} {p : Pos} : p ∈ rowNodes r n ↔ p.1 = r ∧ p.2 < n := by
  obtain ⟨a, b⟩ := p
  simp only [rowNodes, List.mem_map, List.mem_range, Prod.mk.injEq]
  constructor
  · rintro ⟨c, hc, rfl, rfl⟩; exact ⟨rfl, hc⟩
  · rintro ⟨rfl, hb⟩; exact ⟨b, hb, rfl, rfl⟩

theorem mem_getAllNodesFrom {g : Grid} {r : Nat} {p : Pos} :
    p ∈ getAllNodesFrom r g ↔ r ≤ p.1 ∧ (getNode g (p.1 - r, p.2)).isSome := by
  induction g generalizing r with
  | nil => simp [getAllNodesFrom, getNode]
  | cons row g ih =>
    simp only [getAllNodesFrom, List.mem_append, mem_rowNodes, ih]
    constructor
    · rintro (⟨h1, h2⟩ | ⟨h1, h2⟩)
      · subst h1
        simp [getNode, List.getElem?_eq_getElem h2]
      · refine ⟨by omega, ?_⟩
        have : p.1 - r = (p.1 - (r + 1)) + 1 := by omega
        rw [this]
        simpa [getNode] using h2
    · rintro ⟨h1, h2⟩
      by_cases h : p.1 = r
      · left
        refine ⟨h, ?_⟩
        rw [h] at h2
        simp only [getNode, Nat.sub_self, List.getElem?_cons_zero] at h2
        by_contra hc
        rw [List.getElem?_eq_none (Nat.le_of_not_lt hc)] at h2
        simp at h2
      · right
        refine ⟨by omega, ?_⟩
        have : p.1 - r = (p.1 - (r + 1)) + 1 := by omega
        rw [this] at h2
        simpa [getNode] using h2

theorem mem_getAllNodes {g : Grid} {p : Pos} :
    p ∈ getAllNodes g ↔ (getNode g p).isSome := by
  simp [getAllNodes, mem_getAllNodesFrom]

theorem rowMajorLT_irrefl (p : Pos) : ¬ rowMajorLT p p := by
  unfold rowMajorLT; omega

theorem rowMajorLT_trans {p q r : Pos} (h1 : rowMajorLT p q) (h2 : rowMajorLT q r) :
    rowMajorLT p r := by
  unfold rowMajorLT at *; omega

theorem rowMajorLT_asymm {p q : Pos} (h1 : rowMajorLT p q) (h2 : rowMajorLT q p) : False := by
  unfold rowMajorLT at *; omega

theorem pairwise_rowNodes (r n : Nat) : (rowNodes r n).Pairwise rowMajorLT := by
  unfold rowNodes
  rw [List.pairwise_map]
  have h : (List.range n).Pairwise (· < ·) := List.pairwise_lt_range n
  exact h.imp (fun hab => Or.inr ⟨rfl, hab⟩)

theorem pairwise_getAllNodesFrom (g : Grid) (r : Nat) :
    (getAllNodesFrom r g).Pairwise rowMajorLT := by
  induction g generalizing r with
  | nil => simp [getAllNodesFrom]
  | cons row g ih =>
    simp only [getAllNodesFrom]
    rw [List.pairwise_append]
    refine ⟨pairwise_rowNodes r _, ih (r + 1), ?_⟩
    intro a ha b hb
    rw [mem_rowNodes] at ha
    rw [mem_getAllNodesFrom] at hb
    left; omega

theorem pairwise_getAllNodes (g : Grid) : (getAllNodes g).Pairwise rowMajorLT :=
  pairwise_getAllNodesFrom g 0

theorem nodup_getAllNodes (g : Grid) : (getAllNodes g).Nodup := by
  have h := pairwise_getAllNodes g
  refine h.imp ?_
  intro a b hab heq
  subst heq
  exact rowMajorLT_irrefl a hab

/-! ## The comparator -/

theorem distLT_irrefl (x : Option Nat) : distLT x x = false := by
  cases x <;> simp [distLT]

theorem distLT_none_left (x : Option Nat) : distLT none x = false := by
  cases x <;> rfl

theorem distLT_some_some (a b : Nat) : distLT (some a) (some b) = decide (a < b) := rfl

theorem distLT_some_none (a : Nat) : distLT (some a) none = true := rfl

theorem distLT_false_trans {x y z : Option Nat} (h1 : distLT y x = false)
    (h2 : distLT z y = false) : distLT z x = false := by
  cases x <;> cases y <;> cases z <;> simp_all [distLT]
  omega

theorem distLT_false_of_true {x y : Option Nat} (h : distLT x y = true) : distLT y x = false := by
  cases x <;> cases y <;> simp_all [distLT]
  omega

/-! ## The stable sort -/

theorem perm_insertByDistance (g : Grid) (a : Pos) (l : List Pos) :
    (insertByDistance g a l).Perm (a :: l) := by
  induction l with
  | nil => simp [insertByDistance]
  | cons b l ih =>
    simp only [insertByDistance]
    split
    · exact (List.Perm.cons b ih).trans (List.Perm.swap a b l)
    · exact List.Perm.refl _

theorem perm_sortNodesByDistance (g : Grid) (l : List Pos) :
    (sortNodesByDistance g l).Perm l := by
  induction l with
  | nil => simp [sortNodesByDistance]
  | cons a l ih =>
    simp only [sortNodesByDistance]
    exact (perm_insertByDistance g a _).trans (List.Perm.cons a ih)

theorem length_sortNodesByDistance (g : Grid) (l : List Pos) :
    (sortNodesByDistance g l).length = l.length :=
  (perm_sortNodesByDistance g l).length_eq

theorem pairwise_insertByDistance (g : Grid) (a : Pos) (l : List Pos)
    (h : l.Pairwise (DistLE g)) : (insertByDistance g a l).Pairwise (DistLE g) := by
  induction l with
  | nil => simp [insertByDistance]
  | cons b l ih =>
    simp only [insertByDistance]
    rw [List.pairwise_cons] at h
    split
    · rename_i hba
      rw [List.pairwise_cons]
      refine ⟨?_, ih h.2⟩
      intro c hc
      have hc' := (perm_insertByDistance g a l).mem_iff.mp hc
      simp only [List.mem_cons] at hc'
      rcases hc' with rfl | hc'
      · exact distLT_false_of_true hba
      · exact h.1 c hc'
    · rename_i hba
      have hba' : distLT (distanceOf g b) (distanceOf g a) = false := by simpa using hba
      rw [List.pairwise_cons]
      refine ⟨?_, List.pairwise_cons.mpr h⟩
      intro c hc
      simp only [List.mem_cons] at hc
      rcases hc with rfl | hc
      · exact hba'
      · exact distLT_false_trans hba' (h.1 c hc)

theorem pairwise_sortNodesByDistance (g : Grid) (l : List Pos) :
    (sortNodesByDistance g l).Pairwise (DistLE g) := by
  induction l with
  | nil => simp [sortNodesByDistance]
  | cons a l ih => exact pairwise_insertByDistance g a _ ih

theorem filter_insertByDistance (g : Grid) (k : Option Nat) (a : Pos) (l : List Pos) :
    (insertByDistance g a l).filter (fun p => decide (distanceOf g p = k)) =
      (a :: l).filter (fun p => decide (distanceOf g p = k)) := by
  induction l with
  | nil => rfl
  | cons b l ih =>
    simp only [insertByDistance]
    by_cases hba : distLT (distanceOf g b) (distanceOf g a) = true
    · rw [if_pos hba, List.filter_cons, ih]
      by_cases hb : distanceOf g b = k
      · have ha : ¬ distanceOf g a = k := by
          intro ha
          rw [hb, ha, distLT_irrefl] at hba
          cases hba
        simp [List.filter_cons, hb, ha]
      · simp [List.filter_cons, hb]
    · rw [if_neg hba]

/-- The sort is stable: the cells of any one distance keep their order. -/
theorem filter_sortNodesByDistance (g : Grid) (k : Option Nat) (l : List Pos) :
    (sortNodesByDistance g l).filter (fun p => decide (distanceOf g p = k)) =
      l.filter (fun p => decide (distanceOf g p = k)) := by
  induction l with
  | nil => rfl
  | cons a l ih =>
    simp only [sortNodesByDistance]
    rw [filter_insertByDistance, List.filter_cons, List.filter_cons, ih]

theorem insertByDistance_eq_cons (g : Grid) (a : Pos) (l : List Pos)
    (h : ∀ b ∈ l.head?, distLT (distanceOf g b) (distanceOf g a) = false) :
    insertByDistance g a l = a :: l := by
  cases l with
  | nil => rfl
  | cons b l =>
    have := h b (by simp)
    simp [insertByDistance, this]

theorem insertByDistance_append (g : Grid) (a : Pos) (l₁ l₂ : List Pos)
    (h : ∀ b ∈ l₁, distLT (distanceOf g b) (distanceOf g a) = true) :
    insertByDistance g a (l₁ ++ l₂) = l₁ ++ insertByDistance g a l₂ := by
  induction l₁ with
  | nil => rfl
  | cons b l₁ ih =>
    have hb := h b (by simp)
    simp only [List.cons_append, insertByDistance, hb, if_true, List.cons.injEq, true_and]
    exact ih (fun c hc => h c (by simp [hc]))

/-- When the cells of finite distance already stand in sorted order, the stable
sort moves them to the front and keeps both groups in their order. -/
theorem distanceOf_eq_none_of_not_isFinite {g : Grid} {p : Pos}
    (h : (!isFinite g p) = true) : distanceOf g p = none := by
  simp only [isFinite] at h
  cases hd : distanceOf g p with
  | none => rfl
  | some d => simp [hd] at h

theorem mem_head?_filter_infinite {g : Grid} {l : List Pos} {b : Pos}
    (hb : b ∈ (l.filter (fun p => !isFinite g p)).head?) : distanceOf g b = none := by
  have hb' : b ∈ l.filter (fun p => !isFinite g p) := List.mem_of_mem_head? hb
  rw [List.mem_filter] at hb'
  exact distanceOf_eq_none_of_not_isFinite hb'.2

theorem sortNodesByDistance_eq_filter (g : Grid) (l : List Pos)
    (h : (l.filter (isFinite g)).Pairwise (DistLE g)) :
    sortNodesByDistance g l =
      l.filter (isFinite g) ++ l.filter (fun p => !isFinite g p) := by
  induction l with
  | nil => rfl
  | cons a l ih =>
    simp only [sortNodesByDistance]
    cases ha : distanceOf g a with
    | none =>
      have hfa : isFinite g a = false := by simp [isFinite, ha]
      simp only [List.filter_cons, hfa] at h ⊢
      rw [ih h]
      simp only [Bool.false_eq_true, if_false, Bool.not_false, if_true]
      rw [insertByDistance_append]
      · rw [insertByDistance_eq_cons]
        intro b hb
        rw [ha, mem_head?_filter_infinite hb]; rfl
      · intro b hb
        rw [List.mem_filter] at hb
        rw [ha]
        have := hb.2
        simp only [isFinite] at this
        cases hdb : distanceOf g b with
        | none => simp [hdb] at this
        | some d => rfl
    | some d =>
      have hfa : isFinite g a = true := by simp [isFinite, ha]
      simp only [List.filter_cons, hfa, if_true] at h ⊢
      rw [List.pairwise_cons] at h
      rw [ih h.2]
      simp only [Bool.not_true, Bool.false_eq_true, if_false]
      rw [insertByDistance_eq_cons]
      · rfl
      · intro b hb
        cases hfl : l.filter (isFinite g) with
        | nil =>
          rw [hfl] at hb
          simp only [List.nil_append] at hb
          rw [mem_head?_filter_infinite hb]; exact distLT_none_left _
        | cons c t =>
          rw [hfl] at hb
          simp only [List.cons_append, List.head?_cons, Option.mem_def, Option.some.injEq] at hb
          subst hb
          exact h.1 c (by rw [hfl]; simp)

/-! ## Field assignments -/

theorem distanceOf_modifyNode (g : Grid) (p q : Pos) (f : Node → Node)
    (hf : ∀ n, (f n).distance = n.distance) :
    distanceOf (modifyNode g p f) q = distanceOf g q := by
  simp only [distanceOf, getNode_modifyNode]
  by_cases h : p = q
  · simp only [h, if_true]
    cases getNode g q <;> simp [hf]
  · simp only [h, if_false]

theorem previousOf_modifyNode (g : Grid) (p q : Pos) (f : Node → Node)
    (hf : ∀ n, (f n).previousNode = n.previousNode) :
    previousOf (modifyNode g p f) q = previousOf g q := by
  simp only [previousOf, getNode_modifyNode]
  by_cases h : p = q
  · simp only [h, if_true]
    cases getNode g q <;> simp [hf]
  · simp only [h, if_false]

theorem isWallAt_modifyNode (g : Grid) (p q : Pos) (f : Node → Node)
    (hf : ∀ n, (f n).isWall = n.isWall) :
    isWallAt (modifyNode g p f) q = isWallAt g q := by
  simp only [isWallAt, getNode_modifyNode]
  by_cases h : p = q
  · simp only [h, if_true]
    cases getNode g q <;> simp [hf]
  · simp only [h, if_false]

theorem isVisitedAt_modifyNode (g : Grid) (p q : Pos) (f : Node → Node)
    (hf : ∀ n, (f n).isVisited = n.isVisited) :
    isVisitedAt (modifyNode g p f) q = isVisitedAt g q := by
  simp only [isVisitedAt, getNode_modifyNode]
  by_cases h : p = q
  · simp only [h, if_true]
    cases getNode g q <;> simp [hf]
  · simp only [h, if_false]

theorem distanceOf_markVisited (g : Grid) (c q : Pos) :
    distanceOf (markVisited g c) q = distanceOf g q :=
  distanceOf_modifyNode g c q _ (fun _ => rfl)

theorem previousOf_markVisited (g : Grid) (c q : Pos) :
    previousOf (markVisited g c) q = previousOf g q :=
  previousOf_modifyNode g c q _ (fun _ => rfl)

theorem isWallAt_markVisited (g : Grid) (c q : Pos) :
    isWallAt (markVisited g c) q = isWallAt g q :=
  isWallAt_modifyNode g c q _ (fun _ => rfl)

theorem isVisitedAt_markVisited (g : Grid) (c q : Pos) :
    isVisitedAt (markVisited g c) q =
      if c = q then (getNode g q).isSome else isVisitedAt g q := by
  simp only [isVisitedAt, markVisited, getNode_modifyNode]
  by_cases h : c = q
  · simp only [h, if_true]
    cases getNode g q <;> rfl
  · simp only [h, if_false]

theorem isSome_getNode_of_distanceOf {g : Grid} {p : Pos} {d : Nat}
    (h : distanceOf g p = some d) : (getNode g p).isSome = true := by
  unfold distanceOf at h
  cases hg : getNode g p with
  | none => simp [hg] at h
  | some n => rfl

theorem relaxNeighbor_eq (g : Grid) (c a : Pos) (d : Nat) (hd : distanceOf g c = some d) :
    relaxNeighbor c g a =
      if distLT (some (d + 1)) (distanceOf g a) = true then setRelaxed g c d a else g := by
  simp only [relaxNeighbor, hd]

theorem getNode_foldl_relaxNeighbor (c : Pos) (d : Nat) (nbrs : List Pos) (g : Grid)
    (hc : c ∉ nbrs) (hd : distanceOf g c = some d) (q : Pos) :
    getNode (nbrs.foldl (relaxNeighbor c) g) q =
      if q ∈ nbrs ∧ distLT (some (d + 1)) (distanceOf g q) = true then
        (getNode g q).map
          (fun n => { n with distance := some (d + 1), previousNode := some c })
      else getNode g q := by
  induction nbrs generalizing g with
  | nil => simp
  | cons a l ih =>
    have hca : a ≠ c := fun h => hc (by simp [h])
    have hcl : c ∉ l := fun h => hc (by simp [h])
    simp only [List.foldl_cons]
    rw [relaxNeighbor_eq g c a d hd]
    by_cases hlt : distLT (some (d + 1)) (distanceOf g a) = true
    · rw [if_pos hlt]
      have hd' : distanceOf (setRelaxed g c d a) c = some d := by
        simp only [distanceOf, setRelaxed, getNode_modifyNode, hca, if_false]
        exact hd
      rw [ih _ hcl hd']
      by_cases hqa : q = a
      · subst hqa
        simp only [List.mem_cons, true_or, hlt, and_self, if_true]
        simp only [setRelaxed, getNode_modifyNode, if_true]
        split <;> cases getNode g q <;> rfl
      · have hqa' : ¬ a = q := fun h => hqa h.symm
        simp only [List.mem_cons, hqa, false_or]
        simp only [distanceOf, setRelaxed, getNode_modifyNode, hqa', if_false]
    · rw [if_neg hlt]
      rw [ih _ hcl hd]
      by_cases hqa : q = a
      · subst hqa
        simp [hlt]
      · simp [hqa]

theorem shape_foldl_relaxNeighbor (c : Pos) (nbrs : List Pos) (g : Grid) :
    shape (nbrs.foldl (relaxNeighbor c) g) = shape g := by
  induction nbrs generalizing g with
  | nil => rfl
  | cons a l ih =>
    simp only [List.foldl_cons]
    rw [ih]
    unfold relaxNeighbor
    split
    · rfl
    · split
      · exact shape_modifyNode _ _ _
      · rfl

/-! ## `getUnvisitedNeighbors` -/

theorem bind_ne_outOfFuel {α β : Type} (x : Except Fault α) (f : α → Except Fault β)
    (hx : x ≠ .error .outOfFuel) (hf : ∀ a, f a ≠ .error .outOfFuel) :
    x.bind f ≠ .error .outOfFuel := by
  cases x with
  | error e => simpa [Except.bind] using hx
  | ok a => simpa [Except.bind] using hf a

theorem bind_eq_ok {α β : Type} {x : Except Fault α} {f : α → Except Fault β} {b : β}
    (h : x.bind f = .ok b) : ∃ a, x = .ok a ∧ f a = .ok b := by
  cases x with
  | error e => simp [Except.bind] at h
  | ok a => exact ⟨a, rfl, by simpa [Except.bind] using h⟩

theorem pushNeighbor_ne_outOfFuel (cond : Bool) (g : Grid) (p : Pos) :
    pushNeighbor cond g p ≠ .error .outOfFuel := by
  unfold pushNeighbor
  split
  · split <;> simp
  · simp

theorem firstRow_ne_outOfFuel (g : Grid) : firstRow g ≠ .error .outOfFuel := by
  unfold firstRow
  split <;> simp

theorem getUnvisitedNeighbors_ne_outOfFuel (n : Node) (g : Grid) :
    getUnvisitedNeighbors n g ≠ .error .outOfFuel := by
  unfold getUnvisitedNeighbors
  refine bind_ne_outOfFuel _ _ (pushNeighbor_ne_outOfFuel _ _ _) (fun _ => ?_)
  refine bind_ne_outOfFuel _ _ (pushNeighbor_ne_outOfFuel _ _ _) (fun _ => ?_)
  refine bind_ne_outOfFuel _ _ (pushNeighbor_ne_outOfFuel _ _ _) (fun _ => ?_)
  refine bind_ne_outOfFuel _ _ (firstRow_ne_outOfFuel _) (fun _ => ?_)
  refine bind_ne_outOfFuel _ _ (pushNeighbor_ne_outOfFuel _ _ _) (fun _ => ?_)
  simp

theorem updateUnvisitedNeighbors_ne_outOfFuel (c : Pos) (g : Grid) :
    updateUnvisitedNeighbors c g ≠ .error .outOfFuel := by
  unfold updateUnvisitedNeighbors
  split
  · simp
  · rename_i n _
    have := getUnvisitedNeighbors_ne_outOfFuel n g
    split
    · rename_i e he
      intro h
      simp only [Except.error.injEq] at h
      subst h
      exact this he
    · simp

theorem mem_getUnvisitedNeighbors {n : Node} {g : Grid} {nbrs : List Pos}
    (h : getUnvisitedNeighbors n g = .ok nbrs) {p : Pos} (hp : p ∈ nbrs) :
    isVisitedAt g p = false ∧ isWallAt g p = false := by
  unfold getUnvisitedNeighbors at h
  obtain ⟨_, _, h⟩ := bind_eq_ok h
  obtain ⟨_, _, h⟩ := bind_eq_ok h
  obtain ⟨_, _, h⟩ := bind_eq_ok h
  obtain ⟨_, _, h⟩ := bind_eq_ok h
  obtain ⟨_, _, h⟩ := bind_eq_ok h
  simp only [Except.ok.injEq] at h
  subst h
  rw [List.mem_filter] at hp
  simpa using hp.2

/-! ## The loop of `dijkstra` -/

theorem dijkstraLoop_ne_outOfFuel (e : Pos) (fuel : Nat) (g : Grid) (u v : List Pos)
    (h : u.length ≤ fuel) : dijkstraLoop fuel g u v e ≠ .error .outOfFuel := by
  induction fuel generalizing g u v with
  | zero =>
    cases u with
    | nil => simp [dijkstraLoop]
    | cons a l => simp at h
  | succ fuel ih =>
    unfold dijkstraLoop
    split
    · simp
    · rename_i c rest hs
      split
      · simp
      · simp only
        split
        · simp
        · split
          · rename_i e' hu
            intro hcontra
            simp only [Except.error.injEq] at hcontra
            subst hcontra
            exact updateUnvisitedNeighbors_ne_outOfFuel _ _ hu
          · rename_i g2 hu
            apply ih
            have := length_sortNodesByDistance g u
            rw [hs] at this
            simp only [List.length_cons] at this
            omega

/-- Invariant rule for the loop: a property kept by every iteration holds
where the loop leaves it. -/
theorem dijkstraLoop_rule (e : Pos) (Inv : Grid → List Pos → List Pos → Prop)
    (Post : List Pos × Grid → Prop)
    (h_empty : ∀ g u v, Inv g u v → sortNodesByDistance g u = [] → Post (v, g))
    (h_inf : ∀ g u v c rest, Inv g u v → sortNodesByDistance g u = c :: rest →
      distanceOf g c = none → Post (v, g))
    (h_end : ∀ g u v rest d, Inv g u v → sortNodesByDistance g u = e :: rest →
      distanceOf g e = some d → Post (v ++ [e], markVisited g e))
    (h_step : ∀ g u v c rest d g2, Inv g u v → sortNodesByDistance g u = c :: rest →
      distanceOf g c = some d → c ≠ e →
      updateUnvisitedNeighbors c (markVisited g c) = .ok g2 → Inv g2 rest (v ++ [c]))
    (fuel : Nat) (g : Grid) (u v : List Pos) (res : List Pos × Grid)
    (hinv : Inv g u v) (hres : dijkstraLoop fuel g u v e = .ok res) : Post res := by
  induction fuel generalizing g u v with
  | zero =>
    cases u with
    | nil =>
      simp only [dijkstraLoop, Except.ok.injEq] at hres
      subst hres
      exact h_empty g [] v hinv rfl
    | cons a l => simp [dijkstraLoop] at hres
  | succ fuel ih =>
    unfold dijkstraLoop at hres
    split at hres
    · rename_i hs
      simp only [Except.ok.injEq] at hres
      subst hres
      exact h_empty g u v hinv hs
    · rename_i c rest hs
      split at hres
      · rename_i hd
        simp only [Except.ok.injEq] at hres
        subst hres
        exact h_inf g u v c rest hinv hs hd
      · rename_i d hd
        simp only at hres
        split at hres
        · rename_i hce
          simp only [Except.ok.injEq] at hres
          subst hres
          subst hce
          exact h_end g u v rest d hinv hs hd
        · rename_i hce
          split at hres
          · cases hres
          · rename_i g2 hu
            exact ih g2 rest (v ++ [c]) (h_step g u v c rest d g2 hinv hs hd hce hu) hres

/-! ## One iteration: what `updateUnvisitedNeighbors` does to the grid -/

theorem updateUnvisitedNeighbors_spec {g g2 : Grid} {c : Pos} {d : Nat}
    (hd : distanceOf g c = some d)
    (hu : updateUnvisitedNeighbors c (markVisited g c) = .ok g2) :
    ∃ n nbrs, getNode (markVisited g c) c = some n ∧
      getUnvisitedNeighbors n (markVisited g c) = .ok nbrs ∧ c ∉ nbrs ∧
      shape g2 = shape g ∧
      ∀ q, getNode g2 q =
        if q ∈ nbrs ∧ distLT (some (d + 1)) (distanceOf g q) = true then
          (getNode (markVisited g c) q).map
            (fun n => { n with distance := some (d + 1), previousNode := some c })
        else getNode (markVisited g c) q := by
  unfold updateUnvisitedNeighbors at hu
  split at hu
  · cases hu
  · rename_i n hn
    split at hu
    · cases hu
    · rename_i nbrs hnb
      simp only [Except.ok.injEq] at hu
      subst hu
      have hcv : isVisitedAt (markVisited g c) c = true := by
        rw [isVisitedAt_markVisited]
        simp [isSome_getNode_of_distanceOf hd]
      have hcn : c ∉ nbrs := by
        intro hmem
        have := (mem_getUnvisitedNeighbors hnb hmem).1
        rw [hcv] at this
        cases this
      refine ⟨n, nbrs, hn, hnb, hcn, ?_, ?_⟩
      · rw [shape_foldl_relaxNeighbor]
        exact shape_modifyNode _ _ _
      · intro q
        have hd1 : distanceOf (markVisited g c) c = some d := by
          rw [distanceOf_markVisited]; exact hd
        rw [getNode_foldl_relaxNeighbor c d nbrs _ hcn hd1 q, distanceOf_markVisited]

/-- Consequences of one iteration that hold for every grid. -/
theorem updateUnvisitedNeighbors_generic {g g2 : Grid} {c : Pos} {d : Nat}
    (hd : distanceOf g c = some d)
    (hu : updateUnvisitedNeighbors c (markVisited g c) = .ok g2) (q : Pos) :
    isVisitedAt g2 q = (if c = q then true else isVisitedAt g q) ∧
    (isVisitedAt g q = true ∨ q = c → distanceOf g2 q = distanceOf g q) ∧
    (distanceOf g2 q = distanceOf g q ∨ distanceOf g2 q = some (d + 1)) := by
  obtain ⟨n, nbrs, hn, hnb, hcn, _, hget⟩ := updateUnvisitedNeighbors_spec hd hu
  have hv1 : isVisitedAt (markVisited g c) q = (if c = q then true else isVisitedAt g q) := by
    rw [isVisitedAt_markVisited]
    by_cases h : c = q
    · subst h; simp [isSome_getNode_of_distanceOf hd]
    · simp [h]
  have hq := hget q
  by_cases hcond : q ∈ nbrs ∧ distLT (some (d + 1)) (distanceOf g q) = true
  · rw [if_pos hcond] at hq
    have hqv := (mem_getUnvisitedNeighbors hnb hcond.1).1
    refine ⟨?_, ?_, ?_⟩
    · rw [← hv1]
      simp only [isVisitedAt, hq]
      cases getNode (markVisited g c) q <;> rfl
    · intro hvis
      have hvq : isVisitedAt (markVisited g c) q = true := by
        rw [hv1]
        rcases hvis with h | h
        · simp [h]
        · simp [h]
      rw [hvq] at hqv
      cases hqv
    · rw [← distanceOf_markVisited g c q]
      simp only [distanceOf, hq]
      cases getNode (markVisited g c) q with
      | none => left; rfl
      | some n => right; rfl
  · rw [if_neg hcond] at hq
    refine ⟨?_, ?_, ?_⟩
    · rw [← hv1]
      simp only [isVisitedAt, hq]
    · intro _
      rw [← distanceOf_markVisited g c q]
      simp only [distanceOf, hq]
    · left
      rw [← distanceOf_markVisited g c q]
      simp only [distanceOf, hq]

/-! ## The order of the returned sequence, for every grid -/

theorem OrderInv.order_step {g g2 : Grid} {u v rest : List Pos} {c : Pos} {d : Nat}
    (hinv : OrderInv g u v) (hs : sortNodesByDistance g u = c :: rest)
    (hd : distanceOf g c = some d)
    (hu : updateUnvisitedNeighbors c (markVisited g c) = .ok g2) :
    OrderInv g2 rest (v ++ [c]) := by
  have hspec := updateUnvisitedNeighbors_generic hd hu
  have hperm := perm_sortNodesByDistance g u
  rw [hs] at hperm
  have hcu : c ∈ u := hperm.mem_iff.mp (by simp)
  have hrest : ∀ p ∈ rest, p ∈ u := fun p hp => hperm.mem_iff.mp (by simp [hp])
  have hsorted := pairwise_sortNodesByDistance g u
  rw [hs, List.pairwise_cons] at hsorted
  have hkeep : ∀ q ∈ v ++ [c], distanceOf g2 q = distanceOf g q := by
    intro q hq
    rw [List.mem_append, List.mem_singleton] at hq
    rcases hq with hq | hq
    · exact (hspec q).2.1 (Or.inl (hinv.visited q hq))
    · exact (hspec q).2.1 (Or.inr hq)
  have hle : ∀ q ∈ v ++ [c], ∃ dq, distanceOf g q = some dq ∧ dq ≤ d := by
    intro q hq
    rw [List.mem_append, List.mem_singleton] at hq
    rcases hq with hq | hq
    · obtain ⟨dq, hdq⟩ := hinv.finite q hq
      have := hinv.below q hq c hcu
      rw [hd, hdq] at this
      refine ⟨dq, hdq, ?_⟩
      simpa [distLT] using this
    · subst hq; exact ⟨d, hd, le_refl d⟩
  refine ⟨?_, ?_, ?_, ?_⟩
  · intro q hq
    rw [(hspec q).1]
    rw [List.mem_append, List.mem_singleton] at hq
    rcases hq with hq | hq
    · simp [hinv.visited q hq]
    · simp [hq]
  · rw [List.pairwise_append]
    refine ⟨?_, by simp, ?_⟩
    · refine List.Pairwise.imp_of_mem ?_ hinv.sorted
      intro a b ha hb hab
      obtain ⟨da, db, h1, h2, h3⟩ := hab
      refine ⟨da, db, ?_, ?_, h3⟩
      · rw [hkeep a (by simp [ha])]; exact h1
      · rw [hkeep b (by simp [hb])]; exact h2
    · intro a ha b hb
      rw [List.mem_singleton] at hb
      subst hb
      obtain ⟨da, h1, h2⟩ := hle a (by simp [ha])
      refine ⟨da, d, ?_, ?_, h2⟩
      · rw [hkeep a (by simp [ha])]; exact h1
      · rw [hkeep b (by simp)]; exact hd
  · intro q hq
    obtain ⟨dq, h1, _⟩ := hle q hq
    exact ⟨dq, by rw [hkeep q hq]; exact h1⟩
  · intro q hq p hp
    obtain ⟨dq, h1, h2⟩ := hle q hq
    rw [hkeep q hq, h1]
    rcases (hspec p).2.2 with h | h
    · rw [h]
      have hcp : distLT (distanceOf g p) (distanceOf g c) = false := hsorted.1 p hp
      rw [hd] at hcp
      cases hdp : distanceOf g p with
      | none => rfl
      | some dp =>
        rw [hdp] at hcp
        simp only [distLT, decide_eq_false_iff_not, not_lt] at hcp ⊢
        omega
    · rw [h]
      simp only [distLT, decide_eq_false_iff_not, not_lt]
      omega

theorem OrderInv.exit {g : Grid} {u v : List Pos} (hinv : OrderInv g u v) :
    v.Pairwise (DistanceLE g) := hinv.sorted

theorem OrderInv.exit_end {g : Grid} {u v rest : List Pos} {e : Pos} {d : Nat}
    (hinv : OrderInv g u v) (hs : sortNodesByDistance g u = e :: rest)
    (hd : distanceOf g e = some d) :
    (v ++ [e]).Pairwise (DistanceLE (markVisited g e)) := by
  have hperm := perm_sortNodesByDistance g u
  rw [hs] at hperm
  have hcu : e ∈ u := hperm.mem_iff.mp (by simp)
  rw [List.pairwise_append]
  refine ⟨?_, by simp, ?_⟩
  · refine List.Pairwise.imp ?_ hinv.sorted
    intro a b hab
    obtain ⟨da, db, h1, h2, h3⟩ := hab
    exact ⟨da, db, by rw [distanceOf_markVisited]; exact h1,
      by rw [distanceOf_markVisited]; exact h2, h3⟩
  · intro a ha b hb
    rw [List.mem_singleton] at hb
    subst hb
    obtain ⟨da, hda⟩ := hinv.finite a ha
    have := hinv.below a ha b hcu
    rw [hd, hda] at this
    refine ⟨da, d, by rw [distanceOf_markVisited]; exact hda,
      by rw [distanceOf_markVisited]; exact hd, ?_⟩
    simpa [distLT] using this

theorem dijkstraLoop_sorted (e : Pos) (fuel : Nat) (g : Grid) (u v : List Pos)
    (res : List Pos × Grid) (hinv : OrderInv g u v)
    (hres : dijkstraLoop fuel g u v e = .ok res) : res.1.Pairwise (DistanceLE res.2) := by
  refine dijkstraLoop_rule e OrderInv (fun r => r.1.Pairwise (DistanceLE r.2))
    ?_ ?_ ?_ ?_ fuel g u v res hinv hres
  · intro g u v h _; exact h.exit
  · intro g u v c rest h _ _; exact h.exit
  · intro g u v rest d h hs hd; exact h.exit_end hs hd
  · intro g u v c rest d g2 h hs hd _ hu; exact h.order_step hs hd hu

/-- C5: for every grid, start and end, `dijkstra` never runs out of fuel, and
when it returns (it does not throw) the returned sequence is ordered by
non-decreasing distance: of any two cells of the sequence the earlier one has
a distance, read in the grid as the search leaves it, at most that of the
later one. -/
theorem dijkstra_sorted (g : Grid) (s e : Pos) :
    match dijkstra g s e with
    | .ok (visited, g') => visited.Pairwise (DistanceLE g')
    | .error f => f = .typeError := by
  cases h : dijkstra g s e with
  | error f =>
    simp only
    cases f with
    | typeError => rfl
    | outOfFuel =>
      exact absurd h (dijkstraLoop_ne_outOfFuel e _ _ _ _ (le_refl _))
  | ok res =>
    obtain ⟨visited, g'⟩ := res
    simp only
    refine dijkstraLoop_sorted e _ _ _ _ (visited, g') ?_ h
    exact ⟨by simp, by simp, by simp, by simp⟩

/-! ## Fresh rectangular grids -/

theorem mem_getAllNodes_fresh {g : Grid} (h : FreshGrid g) {p : Pos} :
    p ∈ getAllNodes g ↔ p.1 < g.length ∧ p.2 < gridWidth g := by
  rw [mem_getAllNodes]
  constructor
  · intro hp
    simp only [getNode] at hp
    cases hrow : g[p.1]? with
    | none => simp [hrow] at hp
    | some row =>
      simp only [hrow] at hp
      have h1 : p.1 < g.length := by
        by_contra hc
        rw [List.getElem?_eq_none (Nat.le_of_not_lt hc)] at hrow
        cases hrow
      have hmem : row ∈ g := List.getElem?_mem hrow
      have h2 : p.2 < row.length := by
        by_contra hc
        rw [List.getElem?_eq_none (Nat.le_of_not_lt hc)] at hp
        cases hp
      rw [h.1 row hmem] at h2
      exact ⟨h1, h2⟩
  · rintro ⟨h1, h2⟩
    obtain ⟨w, hw⟩ := h.2 p.1 h1 p.2 h2
    rw [hw]; rfl

theorem getNode_fresh {g : Grid} (h : FreshGrid g) {p : Pos} (hp : p ∈ getAllNodes g) :
    ∃ w, getNode g p = some (mkNode p.1 p.2 w) := by
  rw [mem_getAllNodes_fresh h] at hp
  exact h.2 p.1 hp.1 p.2 hp.2

theorem Frame.refl {g : Grid} (h : FreshGrid g) : Frame g g := by
  refine ⟨rfl, ?_⟩
  intro p n hn
  have hp : p ∈ getAllNodes g := by rw [mem_getAllNodes, hn]; rfl
  obtain ⟨w, hw⟩ := getNode_fresh h hp
  rw [hw] at hn
  simp only [Option.some.injEq] at hn
  subst hn
  simp [mkNode, isWallAt, hw]

theorem Frame.modify {g0 g : Grid} (h : Frame g0 g) (p : Pos) (f : Node → Node)
    (hf : ∀ n, (f n).row = n.row ∧ (f n).col = n.col ∧ (f n).isWall = n.isWall) :
    Frame g0 (modifyNode g p f) := by
  refine ⟨by rw [shape_modifyNode]; exact h.shape, ?_⟩
  intro q n hn
  rw [getNode_modifyNode] at hn
  by_cases hpq : p = q
  · rw [if_pos hpq] at hn
    cases hg : getNode g q with
    | none => simp [hg] at hn
    | some m =>
      simp only [hg, Option.map_some', Option.some.injEq] at hn
      subst hn
      obtain ⟨h1, h2, h3⟩ := hf m
      rw [h1, h2, h3]
      exact h.static q m hg
  · rw [if_neg hpq] at hn
    exact h.static q n hn

theorem Frame.isSome {g0 g : Grid} (h : Frame g0 g) (p : Pos) :
    (getNode g p).isSome = true ↔ p ∈ getAllNodes g0 := by
  rw [mem_getAllNodes, isSome_getNode_of_shape h.shape]

theorem Frame.isWallAt {g0 g : Grid} (h : Frame g0 g) (p : Pos) :
    isWallAt g p = isWallAt g0 p := by
  cases hg : getNode g p with
  | none =>
    have h1 : (getNode g0 p).isSome = false := by
      rw [← isSome_getNode_of_shape h.shape, hg]; rfl
    cases hg0 : getNode g0 p with
    | none => simp [MapAlgo.isWallAt, hg, hg0]
    | some n => simp [hg0] at h1
  | some n =>
    have := (h.static p n hg).2.2
    simp only [MapAlgo.isWallAt, hg]
    rw [this]; rfl

theorem Frame.length {g0 g : Grid} (h : Frame g0 g) : g.length = g0.length :=
  length_eq_of_shape h.shape

theorem Frame.firstRow {g0 g : Grid} (h : Frame g0 g) (hne : 0 < g0.length) :
    ∃ row0, firstRow g = .ok row0 ∧ row0.length = gridWidth g0 := by
  have hl := row_length_of_shape h.shape 0
  cases g0 with
  | nil => simp at hne
  | cons r0 rest0 =>
    cases g with
    | nil => simp at hl
    | cons r rest =>
      refine ⟨r, by simp [MapAlgo.firstRow], ?_⟩
      simpa [gridWidth] using hl

/-! ## `getUnvisitedNeighbors` on a fresh rectangular grid -/

theorem pushNeighbor_ok {g0 g : Grid} (h : Frame g0 g) (cond : Bool) (p : Pos)
    (hp : cond = true → p ∈ getAllNodes g0) :
    pushNeighbor cond g p = .ok (if cond then [p] else []) := by
  unfold pushNeighbor
  cases cond with
  | false => rfl
  | true =>
    have := (h.isSome p).mpr (hp rfl)
    cases hg : getNode g p with
    | none => simp [hg] at this
    | some n => rfl

theorem mem_candidates {g0 : Grid} (h0 : FreshGrid g0) {c : Pos} (hc : c ∈ getAllNodes g0)
    (p : Pos) : p ∈ candidates g0 c ↔ Adjacent c p ∧ p ∈ getAllNodes g0 := by
  rw [mem_getAllNodes_fresh h0] at hc ⊢
  obtain ⟨c1, c2⟩ := c
  obtain ⟨p1, p2⟩ := p
  simp only [candidates, Adjacent, List.mem_append]
  simp only at hc
  constructor
  · rintro (((h | h) | h) | h)
    · split at h
      · simp only [List.mem_singleton, Prod.mk.injEq] at h; omega
      · simp at h
    · split at h
      · simp only [List.mem_singleton, Prod.mk.injEq] at h; omega
      · simp at h
    · split at h
      · simp only [List.mem_singleton, Prod.mk.injEq] at h; omega
      · simp at h
    · split at h
      · simp only [List.mem_singleton, Prod.mk.injEq] at h; omega
      · simp at h
  · rintro ⟨hadj, hp⟩
    rcases hadj with ⟨h1, h2 | h2⟩ | ⟨h1, h2 | h2⟩
    · left; left; left
      rw [if_pos (by omega)]
      simp only [List.mem_singleton, Prod.mk.injEq]; omega
    · left; left; right
      rw [if_pos (by omega)]
      simp only [List.mem_singleton, Prod.mk.injEq]; omega
    · left; right
      rw [if_pos (by omega)]
      simp only [List.mem_singleton, Prod.mk.injEq]; omega
    · right
      rw [if_pos (by omega)]
      simp only [List.mem_singleton, Prod.mk.injEq]; omega

theorem getUnvisitedNeighbors_fresh {g0 g : Grid} (h0 : FreshGrid g0) (h : Frame g0 g)
    {c : Pos} {n : Node} (hn : getNode g c = some n) :
    getUnvisitedNeighbors n g =
      .ok ((candidates g0 c).filter (fun p => !isVisitedAt g p && !isWallAt g p)) := by
  have hc : c ∈ getAllNodes g0 := (h.isSome c).mp (by rw [hn]; rfl)
  have hc' := (mem_getAllNodes_fresh h0).mp hc
  obtain ⟨hr, hk, _⟩ := h.static c n hn
  obtain ⟨row0, hrow0, hlen⟩ := h.firstRow (by omega)
  unfold getUnvisitedNeighbors
  simp only [hr, hk, h.length]
  rw [pushNeighbor_ok h _ _ (by
    intro hcond
    rw [mem_getAllNodes_fresh h0]
    simp only [decide_eq_true_eq] at hcond
    simp only; omega)]
  simp only [Except.bind]
  rw [pushNeighbor_ok h _ _ (by
    intro hcond
    rw [mem_getAllNodes_fresh h0]
    simp only [decide_eq_true_eq] at hcond
    simp only; omega)]
  simp only [Except.bind]
  rw [pushNeighbor_ok h _ _ (by
    intro hcond
    rw [mem_getAllNodes_fresh h0]
    simp only [decide_eq_true_eq] at hcond
    simp only; omega)]
  simp only [Except.bind, hrow0, hlen]
  rw [pushNeighbor_ok h _ _ (by
    intro hcond
    rw [mem_getAllNodes_fresh h0]
    simp only [decide_eq_true_eq] at hcond
    simp only; omega)]
  simp only [candidates, decide_eq_true_eq]

theorem adjacent_ne {p q : Pos} (h : Adjacent p q) : p ≠ q := by
  intro heq
  subst heq
  unfold Adjacent at h
  omega

theorem adjacent_symm {p q : Pos} (h : Adjacent p q) : Adjacent q p := by
  unfold Adjacent at *
  omega

theorem frame_markVisited {g0 g : Grid} (h : Frame g0 g) (c : Pos) :
    Frame g0 (markVisited g c) :=
  h.modify c _ (fun _ => ⟨rfl, rfl, rfl⟩)

theorem updateUnvisitedNeighbors_fresh {g0 g : Grid} (h0 : FreshGrid g0) (h : Frame g0 g)
    {c : Pos} {d : Nat} (hd : distanceOf g c = some d) :
    ∃ g2, updateUnvisitedNeighbors c (markVisited g c) = .ok g2 ∧ Frame g0 g2 ∧
      ∀ q, (Relaxed g0 g c d q →
              distanceOf g2 q = some (d + 1) ∧ previousOf g2 q = some c) ∧
           (¬ Relaxed g0 g c d q →
              distanceOf g2 q = distanceOf g q ∧ previousOf g2 q = previousOf g q) := by
  have h1 : Frame g0 (markVisited g c) := frame_markVisited h c
  have hcs : (getNode g c).isSome = true := isSome_getNode_of_distanceOf hd
  have hcg : c ∈ getAllNodes g0 := (h.isSome c).mp hcs
  obtain ⟨n, hn⟩ : ∃ n, getNode (markVisited g c) c = some n := by
    have := (h1.isSome c).mpr hcg
    cases hg : getNode (markVisited g c) c with
    | none => simp [hg] at this
    | some n => exact ⟨n, rfl⟩
  have hnb := getUnvisitedNeighbors_fresh h0 h1 hn
  have hu : ∃ g2, updateUnvisitedNeighbors c (markVisited g c) = .ok g2 := by
    unfold updateUnvisitedNeighbors
    rw [hn]
    simp only [hnb]
    exact ⟨_, rfl⟩
  obtain ⟨g2, hu⟩ := hu
  obtain ⟨n', nbrs, hn', hnb', _, hshape, hget⟩ := updateUnvisitedNeighbors_spec hd hu
  rw [hn] at hn'
  simp only [Option.some.injEq] at hn'
  subst hn'
  rw [hnb] at hnb'
  simp only [Except.ok.injEq] at hnb'
  have hmem : ∀ q, q ∈ nbrs ↔ Hop g0 c q ∧ isVisitedAt g q = false := by
    intro q
    rw [← hnb', List.mem_filter, mem_candidates h0 hcg, h1.isWallAt, isVisitedAt_markVisited]
    unfold Hop
    constructor
    · rintro ⟨⟨hadj, hq⟩, hf⟩
      have hne := adjacent_ne hadj
      simp only [hne, if_false, Bool.and_eq_true, Bool.not_eq_true'] at hf
      exact ⟨⟨hadj, hq, hf.2⟩, hf.1⟩
    · rintro ⟨⟨hadj, hq, hw⟩, hv⟩
      have hne := adjacent_ne hadj
      simp only [hne, if_false, Bool.and_eq_true, Bool.not_eq_true']
      exact ⟨⟨hadj, hq⟩, hv, hw⟩
  refine ⟨g2, hu, ⟨hshape.trans h.shape, ?_⟩, ?_⟩
  · intro p m hm
    rw [hget p] at hm
    by_cases hcond : p ∈ nbrs ∧ distLT (some (d + 1)) (distanceOf g p) = true
    · rw [if_pos hcond] at hm
      cases hg : getNode (markVisited g c) p with
      | none => simp [hg] at hm
      | some m' =>
        simp only [hg, Option.map_some', Option.some.injEq] at hm
        subst hm
        exact h1.static p m' hg
    · rw [if_neg hcond] at hm
      exact h1.static p m hm
  · intro q
    have hq := hget q
    constructor
    · intro hr
      have hcond : q ∈ nbrs ∧ distLT (some (d + 1)) (distanceOf g q) = true :=
        ⟨(hmem q).mpr ⟨hr.1, hr.2.1⟩, hr.2.2⟩
      rw [if_pos hcond] at hq
      have hqs := (h1.isSome q).mpr hr.1.2.1
      cases hg : getNode (markVisited g c) q with
      | none => simp [hg] at hqs
      | some m =>
        rw [hg] at hq
        simp only [distanceOf, previousOf, hq, Option.map_some', and_self]
    · intro hr
      have hcond : ¬ (q ∈ nbrs ∧ distLT (some (d + 1)) (distanceOf g q) = true) := by
        rintro ⟨hq1, hq2⟩
        exact hr ⟨((hmem q).mp hq1).1, ((hmem q).mp hq1).2, hq2⟩
      rw [if_neg hcond] at hq
      rw [← distanceOf_markVisited g c q, ← previousOf_markVisited g c q]
      simp only [distanceOf, previousOf, hq, and_self]

/-! ## The invariant of the search on a fresh rectangular grid -/

theorem fresh_fields {g : Grid} (h : FreshGrid g) (p : Pos) :
    distanceOf g p = none ∧ isVisitedAt g p = false ∧ previousOf g p = none := by
  cases hg : getNode g p with
  | none => simp [distanceOf, isVisitedAt, previousOf, hg]
  | some n =>
    have hp : p ∈ getAllNodes g := by rw [mem_getAllNodes, hg]; rfl
    obtain ⟨w, hw⟩ := getNode_fresh h hp
    simp [distanceOf, isVisitedAt, previousOf, hw, mkNode]

theorem SearchInv.search_init {g0 : Grid} (h0 : FreshGrid g0) {s : Pos} (hs : s ∈ getAllNodes g0)
    (e : Pos) :
    SearchInv g0 s e (modifyNode g0 s (fun n => { n with distance := some 0 }))
      (getAllNodes g0) [] := by
  have hdist : ∀ p, p ≠ s →
      distanceOf (modifyNode g0 s (fun n => { n with distance := some 0 })) p = none := by
    intro p hp
    have hp' : ¬ s = p := fun h => hp h.symm
    simp only [distanceOf, getNode_modifyNode, hp', if_false]
    exact (fresh_fields h0 p).1
  refine ⟨(Frame.refl h0).modify s _ (fun _ => ⟨rfl, rfl, rfl⟩), by simp,
    ⟨by simp, by simp, by simp, by simp⟩, ?_, by simp, ?_, ?_, ?_, by simp⟩
  · intro p hp
    have := isVisitedAt_modifyNode g0 s p (fun n => { n with distance := some 0 })
      (fun _ => rfl)
    rw [this, (fresh_fields h0 p).2.1] at hp
    cases hp
  · obtain ⟨w, hw⟩ := getNode_fresh h0 hs
    simp [distanceOf, getNode_modifyNode, hw]
  · intro p q hpq
    have := previousOf_modifyNode g0 s p (fun n => { n with distance := some 0 })
      (fun _ => rfl)
    rw [this, (fresh_fields h0 p).2.2] at hpq
    cases hpq
  · intro p d hd _
    by_contra hne
    rw [hdist p hne] at hd
    cases hd

theorem SearchInv.nodup {g0 : Grid} {s e : Pos} {g : Grid} {u v : List Pos}
    (h : SearchInv g0 s e g u v) : (v ++ u).Nodup :=
  h.perm.nodup_iff.mpr (nodup_getAllNodes g0)

theorem SearchInv.mem_grid {g0 : Grid} {s e : Pos} {g : Grid} {u v : List Pos}
    (h : SearchInv g0 s e g u v) (p : Pos) : p ∈ getAllNodes g0 ↔ p ∈ v ∨ p ∈ u := by
  rw [← h.perm.mem_iff, List.mem_append]

theorem SearchInv.search_step {g0 : Grid} (h0 : FreshGrid g0) {s e : Pos} {g g2 : Grid}
    {u v rest : List Pos} {c : Pos} {d : Nat}
    (h : SearchInv g0 s e g u v) (hs : sortNodesByDistance g u = c :: rest)
    (hd : distanceOf g c = some d) (hce : c ≠ e)
    (hu : updateUnvisitedNeighbors c (markVisited g c) = .ok g2) :
    SearchInv g0 s e g2 rest (v ++ [c]) := by
  obtain ⟨g2', hu', hframe, hR⟩ := updateUnvisitedNeighbors_fresh h0 h.frame hd
  rw [hu] at hu'
  simp only [Except.ok.injEq] at hu'
  subst hu'
  have hgen := updateUnvisitedNeighbors_generic hd hu
  have hperm := perm_sortNodesByDistance g u
  rw [hs] at hperm
  have hcu : c ∈ u := hperm.mem_iff.mp (by simp)
  have hnotR_vis : ∀ q, isVisitedAt g q = true → ¬ Relaxed g0 g c d q := by
    intro q hq hr
    rw [hr.2.1] at hq
    cases hq
  have hnotR_c : ¬ Relaxed g0 g c d c := fun hr => adjacent_ne hr.1.1 rfl
  have hdc2 : distanceOf g2 c = some d := by rw [((hR c).2 hnotR_c).1]; exact hd
  have hkeep : ∀ q ∈ v, distanceOf g2 q = distanceOf g q := fun q hq =>
    ((hR q).2 (hnotR_vis q (h.order.visited q hq))).1
  refine ⟨hframe, ?_, h.order.order_step hs hd hu, ?_, ?_, ?_, ?_, ?_, ?_⟩
  · rw [List.append_assoc]
    exact (List.Perm.append_left v hperm).trans h.perm
  · intro p hp
    rw [(hgen p).1] at hp
    by_cases hcp : c = p
    · simp [hcp]
    · simp only [hcp, if_false] at hp
      simp [h.visitedIn p hp]
  · intro hmem
    rw [List.mem_append, List.mem_singleton] at hmem
    rcases hmem with hmem | hmem
    · exact h.endNot hmem
    · exact hce hmem.symm
  · have hns : ¬ Relaxed g0 g c d s := by
      intro hr
      have := hr.2.2
      rw [h.start] at this
      simp [distLT] at this
    rw [((hR s).2 hns).1]; exact h.start
  · intro p q hpq
    by_cases hr : Relaxed g0 g c d p
    · rw [((hR p).1 hr).2] at hpq
      simp only [Option.some.injEq] at hpq
      subst hpq
      exact ⟨by simp, hr.1, d, hdc2, ((hR p).1 hr).1⟩
    · rw [((hR p).2 hr).2] at hpq
      obtain ⟨hq, hhop, dq, h1, h2⟩ := h.prev p q hpq
      refine ⟨by simp [hq], hhop, dq, ?_, ?_⟩
      · rw [hkeep q hq]; exact h1
      · rw [((hR p).2 hr).1]; exact h2
  · intro p d' hd' hprev
    by_cases hr : Relaxed g0 g c d p
    · rw [((hR p).1 hr).2] at hprev
      cases hprev
    · rw [((hR p).2 hr).1] at hd'
      rw [((hR p).2 hr).2] at hprev
      exact h.root p d' hd' hprev
  · intro q hq p hhop
    rw [List.mem_append, List.mem_singleton] at hq
    rcases hq with hq | hq
    · obtain ⟨dq, dp, h1, h2, h3⟩ := h.processed q hq p hhop
      by_cases hr : Relaxed g0 g c d p
      · refine ⟨dq, d + 1, by rw [hkeep q hq]; exact h1, ((hR p).1 hr).1, ?_⟩
        have := hr.2.2
        rw [h2] at this
        simp only [distLT, decide_eq_true_eq] at this
        omega
      · exact ⟨dq, dp, by rw [hkeep q hq]; exact h1, by rw [((hR p).2 hr).1]; exact h2, h3⟩
    · subst hq
      by_cases hr : Relaxed g0 g q d p
      · exact ⟨d, d + 1, hdc2, ((hR p).1 hr).1, le_refl _⟩
      · rw [Relaxed] at hr
        by_cases hvis : isVisitedAt g p = true
        · have hpv := h.visitedIn p hvis
          obtain ⟨dp, hdp⟩ := h.order.finite p hpv
          have := h.order.below p hpv q hcu
          rw [hd, hdp] at this
          simp only [distLT, decide_eq_false_iff_not, not_lt] at this
          exact ⟨d, dp, hdc2, by rw [hkeep p hpv]; exact hdp, by omega⟩
        · have hvis' : isVisitedAt g p = false := by
            cases hb : isVisitedAt g p with
            | true => exact absurd hb hvis
            | false => rfl
          have hlt : distLT (some (d + 1)) (distanceOf g p) = false := by
            cases hb : distLT (some (d + 1)) (distanceOf g p) with
            | true => exact absurd ⟨hhop, hvis', hb⟩ hr
            | false => rfl
          have hnr : ¬ Relaxed g0 g q d p := fun hr' => by
            have := hr'.2.2
            rw [hlt] at this
            cases this
          cases hdp : distanceOf g p with
          | none => rw [hdp] at hlt; simp [distLT] at hlt
          | some dp =>
            rw [hdp] at hlt
            simp only [distLT, decide_eq_false_iff_not, not_lt] at hlt
            exact ⟨d, dp, hdc2, by rw [((hR p).2 hnr).1]; exact hdp, hlt⟩

theorem dijkstraLoop_exit {g0 : Grid} (h0 : FreshGrid g0) (s e : Pos) (fuel : Nat)
    (g : Grid) (u v : List Pos) (h : SearchInv g0 s e g u v) (hfuel : u.length ≤ fuel) :
    ∃ res g' u' v', dijkstraLoop fuel g u v e = .ok res ∧
      SearchInv g0 s e g' u' v' ∧ Exit e g' u' v' res := by
  induction fuel generalizing g u v with
  | zero =>
    cases u with
    | nil =>
      exact ⟨(v, g), g, [], v, rfl, h, Exit.exhausted (by simp)⟩
    | cons a l => simp at hfuel
  | succ fuel ih =>
    unfold dijkstraLoop
    cases hs : sortNodesByDistance g u with
    | nil =>
      have hu : u = [] := by
        have := length_sortNodesByDistance g u
        rw [hs] at this
        exact List.length_eq_zero.mp this.symm
      subst hu
      exact ⟨(v, g), g, [], v, rfl, h, Exit.exhausted (by simp)⟩
    | cons c rest =>
      simp only
      have hperm := perm_sortNodesByDistance g u
      rw [hs] at hperm
      cases hd : distanceOf g c with
      | none =>
        refine ⟨(v, g), g, u, v, rfl, h, Exit.exhausted ?_⟩
        intro p hp
        have hsorted := pairwise_sortNodesByDistance g u
        rw [hs, List.pairwise_cons] at hsorted
        have hp' := hperm.mem_iff.mpr hp
        rw [List.mem_cons] at hp'
        rcases hp' with rfl | hp'
        · exact hd
        · have := hsorted.1 p hp'
          unfold DistLE at this
          rw [hd] at this
          cases hdp : distanceOf g p with
          | none => rfl
          | some dp => rw [hdp] at this; simp [distLT] at this
      | some d =>
        simp only
        by_cases hce : c = e
        · rw [if_pos hce]
          subst hce
          exact ⟨_, g, u, v, rfl, h, Exit.found rest d hs hd⟩
        · rw [if_neg hce]
          obtain ⟨g2, hu, _, _⟩ := updateUnvisitedNeighbors_fresh h0 h.frame hd
          have hu' : updateUnvisitedNeighbors c
              (modifyNode g c (fun n => { n with isVisited := true })) = .ok g2 := hu
          rw [hu']
          simp only
          apply ih
          · exact h.search_step h0 hs hd hce hu
          · have := hperm.length_eq
            simp only [List.length_cons] at this
            omega

/-- On a fresh rectangular grid the search returns, and it leaves the loop in a
state that satisfies the invariant. -/
theorem dijkstra_exit {g0 : Grid} (h0 : FreshGrid g0) {s : Pos} (hs : s ∈ getAllNodes g0)
    (e : Pos) :
    ∃ res g u v, dijkstra g0 s e = .ok res ∧ SearchInv g0 s e g u v ∧ Exit e g u v res := by
  unfold dijkstra
  exact dijkstraLoop_exit h0 s e _ _ _ _ (SearchInv.search_init h0 hs e) (le_refl _)

/-! ## Walks and paths -/

theorem walk_cons {g : Grid} {a b t : Pos} {n : Nat} (hab : Hop g a b)
    (h : Walk g b n t) : Walk g a (n + 1) t := by
  induction h with
  | start => exact Walk.hop Walk.start hab
  | hop _ hpq ih => exact Walk.hop ih hpq

theorem hopChain_tail {g : Grid} {a : Pos} {l : List Pos} (h : HopChain g (a :: l)) :
    HopChain g l := by
  cases l with
  | nil => trivial
  | cons b t => exact h.2

theorem hopChain_append_singleton {g : Grid} {l : List Pos} {q : Pos}
    (h : HopChain g l) (hlast : ∀ p, l.getLast? = some p → Hop g p q) :
    HopChain g (l ++ [q]) := by
  induction l with
  | nil => trivial
  | cons a l ih =>
    cases l with
    | nil => exact ⟨hlast a rfl, trivial⟩
    | cons b t =>
      refine ⟨h.1, ?_⟩
      apply ih h.2
      intro p hp
      apply hlast
      rw [List.getLast?_cons_cons]
      exact hp

theorem walk_of_isPath {g : Grid} {s t : Pos} {l : List Pos} (h : IsPath g s t l) :
    Walk g s (l.length - 1) t := by
  induction l generalizing s with
  | nil =>
    have := h.1
    simp at this
  | cons a l ih =>
    obtain ⟨h1, h2, h3⟩ := h
    simp only [List.head?_cons, Option.some.injEq] at h1
    subst h1
    cases l with
    | nil =>
      simp only [List.getLast?_singleton, Option.some.injEq] at h2
      subst h2
      exact Walk.start
    | cons b l' =>
      rw [List.getLast?_cons_cons] at h2
      have hw := ih (s := b) ⟨rfl, h2, h3.2⟩
      have := walk_cons h3.1 hw
      simpa using this

theorem isPath_of_walk {g : Grid} {s t : Pos} {n : Nat} (h : Walk g s n t) :
    ∃ l, IsPath g s t l ∧ l.length = n + 1 := by
  induction h with
  | start => exact ⟨[s], ⟨rfl, rfl, trivial⟩, rfl⟩
  | hop _ hpq ih =>
    rename_i m p q _
    obtain ⟨l, ⟨h1, h2, h3⟩, hlen⟩ := ih
    refine ⟨l ++ [q], ⟨?_, ?_, ?_⟩, ?_⟩
    · cases l with
      | nil => simp at h1
      | cons a l' => simpa using h1
    · simp
    · apply hopChain_append_singleton h3
      intro p' hp'
      rw [h2] at hp'
      simp only [Option.some.injEq] at hp'
      subst hp'
      exact hpq
    · simp [hlen]

theorem reachable_iff_walk {g : Grid} {s t : Pos} :
    Reachable g s t ↔ ∃ n, Walk g s n t := by
  constructor
  · rintro ⟨l, hl⟩
    exact ⟨_, walk_of_isPath hl⟩
  · rintro ⟨n, hn⟩
    obtain ⟨l, hl, _⟩ := isPath_of_walk hn
    exact ⟨l, hl⟩

/-! ## The state in which the search leaves the grid -/

theorem SearchInv.walk_cases {g0 : Grid} {s e : Pos} {g : Grid} {u v : List Pos}
    (h : SearchInv g0 s e g u v) {n : Nat} {p : Pos} (hw : Walk g0 s n p) :
    (p ∈ v ∧ ∃ d, distanceOf g p = some d ∧ d ≤ n) ∨
    (∃ p' ∈ u, ∃ d', distanceOf g p' = some d' ∧ d' ≤ n) := by
  induction hw with
  | start =>
    have hs : s ∈ getAllNodes g0 :=
      (h.frame.isSome s).mp (isSome_getNode_of_distanceOf h.start)
    rcases (h.mem_grid s).mp hs with hv | hu
    · exact Or.inl ⟨hv, 0, h.start, le_refl _⟩
    · exact Or.inr ⟨s, hu, 0, h.start, le_refl _⟩
  | hop _ hpq ih =>
    rename_i m p q _
    rcases ih with ⟨hv, d, hd, hle⟩ | ⟨p', hp', d', hd', hle⟩
    · obtain ⟨d1, d2, h1, h2, h3⟩ := h.processed p hv q hpq
      rw [hd] at h1
      simp only [Option.some.injEq] at h1
      subst h1
      rcases (h.mem_grid q).mp hpq.2.1 with hqv | hqu
      · exact Or.inl ⟨hqv, d2, h2, by omega⟩
      · exact Or.inr ⟨q, hqu, d2, h2, by omega⟩
    · exact Or.inr ⟨p', hp', d', hd', by omega⟩

theorem Final.of_exit {g0 : Grid} {s e : Pos} {g : Grid} {u v : List Pos}
    {res : List Pos × Grid} (h : SearchInv g0 s e g u v) (hx : Exit e g u v res) :
    Final g0 s e res.1 res.2 := by
  have hnd := h.nodup
  rw [List.nodup_append] at hnd
  cases hx with
  | exhausted hinf =>
    have hno : ∀ n, ¬ ∃ p' ∈ u, ∃ d', distanceOf g p' = some d' ∧ d' ≤ n := by
      rintro n ⟨p', hp', d', hd', _⟩
      rw [hinf p' hp'] at hd'
      cases hd'
    refine ⟨h.frame, hnd.1, ?_, ?_, h.start, ?_, h.root, h.order.finite, ?_, ?_⟩
    · intro p hp
      exact (h.mem_grid p).mpr (Or.inl hp)
    · intro p
      exact ⟨h.visitedIn p, h.order.visited p⟩
    · intro p q hpq
      obtain ⟨h1, h2, h3⟩ := h.prev p q hpq
      exact ⟨h1, fun heq => h.endNot (heq ▸ h1), h2, h3⟩
    · intro c _ n hw
      rcases h.walk_cases hw with ⟨_, d, hd, hle⟩ | hc
      · exact ⟨d, hd, hle⟩
      · exact absurd hc (hno n)
    · left
      refine ⟨h.endNot, ?_⟩
      intro n p hw
      rcases h.walk_cases hw with ⟨hv, _⟩ | hc
      · exact hv
      · exact absurd hc (hno n)
  | found rest d hs hd =>
    have hperm := perm_sortNodesByDistance g u
    rw [hs] at hperm
    have heu : e ∈ u := hperm.mem_iff.mp (by simp)
    have hsorted := pairwise_sortNodesByDistance g u
    rw [hs, List.pairwise_cons] at hsorted
    have hmin : ∀ p' ∈ u, ∀ d', distanceOf g p' = some d' → d ≤ d' := by
      intro p' hp' d' hd'
      have hp'' := hperm.mem_iff.mpr hp'
      rw [List.mem_cons] at hp''
      rcases hp'' with rfl | hp''
      · rw [hd] at hd'
        simp only [Option.some.injEq] at hd'
        omega
      · have := hsorted.1 p' hp''
        unfold DistLE at this
        rw [hd, hd'] at this
        simpa [distLT] using this
    have hes : (getNode g e).isSome = true := isSome_getNode_of_distanceOf hd
    refine ⟨frame_markVisited h.frame e, ?_, ?_, ?_, ?_, ?_, ?_, ?_, ?_, ?_⟩
    · rw [List.nodup_append]
      refine ⟨hnd.1, by simp, ?_⟩
      intro a ha hb
      rw [List.mem_singleton] at hb
      subst hb
      exact h.endNot ha
    · intro p hp
      rw [List.mem_append, List.mem_singleton] at hp
      rcases hp with hp | hp
      · exact (h.mem_grid p).mpr (Or.inl hp)
      · subst hp; exact (h.mem_grid p).mpr (Or.inr heu)
    · intro p
      simp only
      rw [isVisitedAt_markVisited, List.mem_append, List.mem_singleton]
      by_cases hep : e = p
      · subst hep
        simp [hes]
      · have hpe : ¬ p = e := fun hh => hep hh.symm
        simp only [hep, if_false, hpe, or_false]
        exact ⟨h.visitedIn p, h.order.visited p⟩
    · simp only
      rw [distanceOf_markVisited]; exact h.start
    · intro p q hpq
      simp only at hpq ⊢
      rw [previousOf_markVisited] at hpq
      obtain ⟨h1, h2, dq, h3, h4⟩ := h.prev p q hpq
      refine ⟨by simp [h1], fun heq => h.endNot (heq ▸ h1), h2, dq, ?_, ?_⟩
      · rw [distanceOf_markVisited]; exact h3
      · rw [distanceOf_markVisited]; exact h4
    · intro p d' hd' hprev
      simp only at hd' hprev
      rw [distanceOf_markVisited] at hd'
      rw [previousOf_markVisited] at hprev
      exact h.root p d' hd' hprev
    · intro c hc
      simp only at hc ⊢
      rw [distanceOf_markVisited]
      rw [List.mem_append, List.mem_singleton] at hc
      rcases hc with hc | hc
      · exact h.order.finite c hc
      · subst hc; exact ⟨d, hd⟩
    · intro c hc n hw
      simp only at hc ⊢
      rw [distanceOf_markVisited]
      rw [List.mem_append, List.mem_singleton] at hc
      rcases h.walk_cases hw with ⟨_, dc, hdc, hle⟩ | ⟨p', hp', d', hd', hle⟩
      · exact ⟨dc, hdc, hle⟩
      · rcases hc with hc | hc
        · obtain ⟨dc, hdc⟩ := h.order.finite c hc
          have := h.order.below c hc p' hp'
          rw [hdc, hd'] at this
          simp only [distLT, decide_eq_false_iff_not, not_lt] at this
          exact ⟨dc, hdc, by omega⟩
        · subst hc
          exact ⟨d, hd, le_trans (hmin p' hp' d' hd') hle⟩
    · right
      simp

/-- On a fresh rectangular grid the search returns, and the facts of `Final`
hold of what it returns. -/
theorem dijkstra_final {g0 : Grid} (h0 : FreshGrid g0) {s : Pos} (hs : s ∈ getAllNodes g0)
    (e : Pos) :
    ∃ visited g', dijkstra g0 s e = .ok (visited, g') ∧ Final g0 s e visited g' := by
  obtain ⟨res, g, u, v, hres, hinv, hx⟩ := dijkstra_exit h0 hs e
  exact ⟨res.1, res.2, hres, Final.of_exit hinv hx⟩

theorem Final.walk_of_distance {g0 : Grid} {s e : Pos} {visited : List Pos} {g' : Grid}
    (h : Final g0 s e visited g') (d : Nat) :
    ∀ p, distanceOf g' p = some d → Walk g0 s d p := by
  induction d with
  | zero =>
    intro p hp
    cases hprev : previousOf g' p with
    | none =>
      have := h.root p 0 hp hprev
      subst this
      exact Walk.start
    | some q =>
      obtain ⟨_, _, _, dq, _, h2⟩ := h.prev p q hprev
      rw [hp] at h2
      simp at h2
  | succ d ih =>
    intro p hp
    cases hprev : previousOf g' p with
    | none =>
      have := h.root p (d + 1) hp hprev
      subst this
      rw [h.start] at hp
      simp at hp
    | some q =>
      obtain ⟨_, _, hhop, dq, h1, h2⟩ := h.prev p q hprev
      rw [hp] at h2
      simp only [Option.some.injEq, add_left_inj] at h2
      subst h2
      exact Walk.hop (ih q h1) hhop

/-! ## Following `previousNode` -/

theorem predChain_append_singleton {g : Grid} {l : List Pos} {q : Pos}
    (h : PredChain g l)
    (hlast : ∀ p, l.getLast? = some p → previousOf g q = some p ∧
      ∃ da db, distanceOf g p = some da ∧ distanceOf g q = some db ∧ da < db) :
    PredChain g (l ++ [q]) := by
  induction l with
  | nil => trivial
  | cons a l ih =>
    cases l with
    | nil => exact ⟨hlast a rfl, trivial⟩
    | cons b t =>
      refine ⟨h.1, ?_⟩
      apply ih h.2
      intro p hp
      apply hlast
      rw [List.getLast?_cons_cons]
      exact hp

theorem shortestPathLoop_none (fuel : Nat) (g : Grid) (acc : List Pos) :
    shortestPathLoop fuel g none acc = .ok acc := by
  cases fuel <;> rfl

theorem shortestPathLoop_some (fuel : Nat) (g : Grid) (p : Pos) (acc : List Pos)
    (hp : (getNode g p).isSome = true) :
    shortestPathLoop (fuel + 1) g (some p) acc =
      shortestPathLoop fuel g (previousOf g p) (p :: acc) := by
  cases hg : getNode g p with
  | none => simp [hg] at hp
  | some n => simp [shortestPathLoop, previousOf, hg]

theorem Final.previousOf_start {g0 : Grid} {s e : Pos} {visited : List Pos} {g' : Grid}
    (h : Final g0 s e visited g') : previousOf g' s = none := by
  cases hprev : previousOf g' s with
  | none => rfl
  | some q =>
    obtain ⟨_, _, _, dq, _, h2⟩ := h.prev s q hprev
    rw [h.start] at h2
    simp at h2

theorem Final.mem_grid_of_distance {g0 : Grid} {s e : Pos} {visited : List Pos} {g' : Grid}
    (h : Final g0 s e visited g') {p : Pos} {d : Nat} (hd : distanceOf g' p = some d) :
    p ∈ getAllNodes g0 :=
  (h.frame.isSome p).mp (isSome_getNode_of_distanceOf hd)

/-- The chain of predecessors of a cell of finite distance `d`, and the run of
the loop of `getNodesInShortestPathOrder` along it. -/
theorem Final.chain {g0 : Grid} {s e : Pos} {visited : List Pos} {g' : Grid}
    (h : Final g0 s e visited g') (d : Nat) :
    ∀ p, distanceOf g' p = some d →
      ∃ l : List Pos, l.length = d + 1 ∧ l.head? = some s ∧ l.getLast? = some p ∧
        HopChain g0 l ∧ PredChain g' l ∧
        (∀ x ∈ l, ∃ dx, distanceOf g' x = some dx ∧ dx ≤ d) ∧ l.Nodup ∧
        ∀ fuel acc, d < fuel → shortestPathLoop fuel g' (some p) acc = .ok (l ++ acc) := by
  induction d with
  | zero =>
    intro p hp
    have hps : p = s := by
      cases hprev : previousOf g' p with
      | none => exact h.root p 0 hp hprev
      | some q =>
        obtain ⟨_, _, _, dq, _, h2⟩ := h.prev p q hprev
        rw [hp] at h2
        simp at h2
    subst hps
    refine ⟨[p], rfl, rfl, rfl, trivial, trivial, ?_, by simp, ?_⟩
    · intro x hx
      rw [List.mem_singleton] at hx
      subst hx
      exact ⟨0, hp, le_refl _⟩
    · intro fuel acc hfuel
      obtain ⟨f, rfl⟩ : ∃ f, fuel = f + 1 := ⟨fuel - 1, by omega⟩
      rw [shortestPathLoop_some _ _ _ _ (isSome_getNode_of_distanceOf hp),
        h.previousOf_start, shortestPathLoop_none]
      rfl
  | succ d ih =>
    intro p hp
    cases hprev : previousOf g' p with
    | none =>
      have := h.root p (d + 1) hp hprev
      subst this
      rw [h.start] at hp
      simp at hp
    | some q =>
      obtain ⟨_, _, hhop, dq, h1, h2⟩ := h.prev p q hprev
      rw [hp] at h2
      simp only [Option.some.injEq, add_left_inj] at h2
      subst h2
      obtain ⟨l, hlen, hhead, hlast, hchain, hpred, hdist, hnd, hrun⟩ := ih q h1
      refine ⟨l ++ [p], by simp [hlen], ?_, by simp, ?_, ?_, ?_, ?_, ?_⟩
      · cases l with
        | nil => simp at hhead
        | cons a l' => simpa using hhead
      · apply hopChain_append_singleton hchain
        intro p' hp'
        rw [hlast] at hp'
        simp only [Option.some.injEq] at hp'
        subst hp'
        exact hhop
      · apply predChain_append_singleton hpred
        intro p' hp'
        rw [hlast] at hp'
        simp only [Option.some.injEq] at hp'
        subst hp'
        exact ⟨hprev, d, d + 1, h1, hp, Nat.lt_succ_self d⟩
      · intro x hx
        rw [List.mem_append, List.mem_singleton] at hx
        rcases hx with hx | hx
        · obtain ⟨dx, h3, h4⟩ := hdist x hx
          exact ⟨dx, h3, by omega⟩
        · subst hx
          exact ⟨d + 1, hp, le_refl _⟩
      · rw [List.nodup_append]
        refine ⟨hnd, by simp, ?_⟩
        intro a ha hb
        rw [List.mem_singleton] at hb
        subst hb
        obtain ⟨dx, h3, h4⟩ := hdist a ha
        rw [hp] at h3
        simp only [Option.some.injEq] at h3
        omega
      · intro fuel acc hfuel
        obtain ⟨f, rfl⟩ : ∃ f, fuel = f + 1 := ⟨fuel - 1, by omega⟩
        rw [shortestPathLoop_some _ _ _ _ (isSome_getNode_of_distanceOf hp), hprev,
          hrun f (p :: acc) (by omega)]
        simp

theorem Final.cellCount_eq {g0 : Grid} {s e : Pos} {visited : List Pos} {g' : Grid}
    (h : Final g0 s e visited g') :
    MapAlgo.cellCount g' = (getAllNodes g0).length := by
  unfold MapAlgo.cellCount
  rw [getAllNodes_shape h.frame.shape]

theorem Final.distance_lt_cellCount {g0 : Grid} {s e : Pos} {visited : List Pos}
    {g' : Grid} (h : Final g0 s e visited g') {p : Pos} {d : Nat}
    (hd : distanceOf g' p = some d) : d < MapAlgo.cellCount g' + 1 := by
  obtain ⟨l, hlen, _, _, _, _, hdist, hnd, _⟩ := h.chain d p hd
  have hsub : l ⊆ getAllNodes g0 := by
    intro x hx
    obtain ⟨dx, hdx, _⟩ := hdist x hx
    exact h.mem_grid_of_distance hdx
  have := (List.subperm_of_subset hnd hsub).length_le
  rw [h.cellCount_eq]
  omega

/-- The result of `getNodesInShortestPathOrder` for a cell of finite distance. -/
theorem Final.path_of_distance {g0 : Grid} {s e : Pos} {visited : List Pos} {g' : Grid}
    (h : Final g0 s e visited g') {p : Pos} {d : Nat} (hd : distanceOf g' p = some d) :
    ∃ l : List Pos, getNodesInShortestPathOrder g' p = .ok l ∧
      l.length = d + 1 ∧ l.head? = some s ∧ l.getLast? = some p ∧
      HopChain g0 l ∧ PredChain g' l ∧ l.Nodup := by
  obtain ⟨l, hlen, hhead, hlast, hchain, hpred, _, hnd, hrun⟩ := h.chain d p hd
  refine ⟨l, ?_, hlen, hhead, hlast, hchain, hpred, hnd⟩
  unfold getNodesInShortestPathOrder
  rw [hrun _ [] (h.distance_lt_cellCount hd)]
  simp

/-- The result of `getNodesInShortestPathOrder` for a cell of infinite distance. -/
theorem Final.path_of_infinite {g0 : Grid} {s e : Pos} {visited : List Pos} {g' : Grid}
    (h : Final g0 s e visited g') {p : Pos} (hp : p ∈ getAllNodes g0)
    (hd : distanceOf g' p = none) :
    previousOf g' p = none ∧ getNodesInShortestPathOrder g' p = .ok [p] := by
  have hprev : previousOf g' p = none := by
    cases hprev : previousOf g' p with
    | none => rfl
    | some q =>
      obtain ⟨_, _, _, dq, _, h2⟩ := h.prev p q hprev
      rw [hd] at h2
      cases h2
  refine ⟨hprev, ?_⟩
  unfold getNodesInShortestPathOrder
  rw [shortestPathLoop_some _ _ _ _ ((h.frame.isSome p).mpr hp), hprev, shortestPathLoop_none]

/-! ## Grids without walls -/

theorem manhattan_le_of_walk {g : Grid} {s p : Pos} {n : Nat} (h : Walk g s n p) :
    manhattan s p ≤ n := by
  induction h with
  | start => simp [manhattan]
  | hop _ hpq ih =>
    rename_i m p q _
    have hadj := hpq.1
    unfold Adjacent at hadj
    unfold manhattan at *
    omega

theorem walk_manhattan {g0 : Grid} (h0 : FreshGrid g0)
    (hw : ∀ p ∈ getAllNodes g0, isWallAt g0 p = false) {s : Pos} (hs : s ∈ getAllNodes g0)
    (n : Nat) : ∀ e, e ∈ getAllNodes g0 → manhattan s e = n → Walk g0 s n e := by
  have hs' := (mem_getAllNodes_fresh h0).mp hs
  induction n with
  | zero =>
    intro e _ hm
    have : e = s := by
      unfold manhattan at hm
      apply Prod.ext <;> omega
    subst this
    exact Walk.start
  | succ n ih =>
    intro e he hm
    have he' := (mem_getAllNodes_fresh h0).mp he
    have key : ∀ e', e' ∈ getAllNodes g0 → manhattan s e' = n → Adjacent e' e →
        Walk g0 s (n + 1) e := fun e' he1 hm1 hadj =>
      Walk.hop (ih e' he1 hm1) ⟨hadj, he, hw e he⟩
    unfold manhattan at hm
    by_cases h1 : s.1 < e.1
    · apply key (e.1 - 1, e.2)
      · rw [mem_getAllNodes_fresh h0]; simp only; omega
      · unfold manhattan; simp only; omega
      · exact Or.inl ⟨rfl, Or.inr (by simp only; omega)⟩
    · by_cases h2 : e.1 < s.1
      · apply key (e.1 + 1, e.2)
        · rw [mem_getAllNodes_fresh h0]; simp only; omega
        · unfold manhattan; simp only; omega
        · exact Or.inl ⟨rfl, Or.inl (by simp only)⟩
      · by_cases h3 : s.2 < e.2
        · apply key (e.1, e.2 - 1)
          · rw [mem_getAllNodes_fresh h0]; simp only; omega
          · unfold manhattan; simp only; omega
          · exact Or.inr ⟨rfl, Or.inr (by simp only; omega)⟩
        · apply key (e.1, e.2 + 1)
          · rw [mem_getAllNodes_fresh h0]; simp only; omega
          · unfold manhattan; simp only; omega
          · exact Or.inr ⟨rfl, Or.inl (by simp only)⟩

/-! ## Lists in row-major order -/

theorem nodup_of_pairwise_rowMajorLT {l : List Pos} (h : l.Pairwise rowMajorLT) : l.Nodup := by
  refine h.imp ?_
  intro a b hab heq
  subst heq
  exact rowMajorLT_irrefl a hab

theorem eq_of_pairwise_rowMajorLT {l₁ l₂ : List Pos} (h₁ : l₁.Pairwise rowMajorLT)
    (h₂ : l₂.Pairwise rowMajorLT) (hmem : ∀ p, p ∈ l₁ ↔ p ∈ l₂) : l₁ = l₂ := by
  haveI : IsAntisymm Pos rowMajorLT := ⟨fun a b hab hba => (rowMajorLT_asymm hab hba).elim⟩
  have hperm : l₁.Perm l₂ :=
    (List.perm_ext_iff_of_nodup (nodup_of_pairwise_rowMajorLT h₁)
      (nodup_of_pairwise_rowMajorLT h₂)).mpr hmem
  exact List.eq_of_perm_of_sorted hperm h₁ h₂

theorem mem_neighboursRowMajor (c p : Pos) : p ∈ neighboursRowMajor c ↔ Adjacent c p := by
  obtain ⟨c1, c2⟩ := c
  obtain ⟨p1, p2⟩ := p
  simp only [neighboursRowMajor, Adjacent, List.mem_append, List.mem_cons, Prod.mk.injEq,
    List.mem_singleton, List.not_mem_nil, or_false]
  constructor
  · rintro ((h | h) | h | h)
    · split at h
      · simp only [List.mem_singleton, Prod.mk.injEq] at h; omega
      · simp at h
    · split at h
      · simp only [List.mem_singleton, Prod.mk.injEq] at h; omega
      · simp at h
    · omega
    · omega
  · rintro (⟨h1, h2 | h2⟩ | ⟨h1, h2 | h2⟩)
    · left; left
      rw [if_pos (by omega)]
      simp only [List.mem_singleton, Prod.mk.injEq]; omega
    · right; right; omega
    · left; right
      rw [if_pos (by omega)]
      simp only [List.mem_singleton, Prod.mk.injEq]; omega
    · right; left; omega

theorem pairwise_neighboursRowMajor (c : Pos) :
    (neighboursRowMajor c).Pairwise rowMajorLT := by
  obtain ⟨c1, c2⟩ := c
  have hlast : ([(c1, c2 + 1), (c1 + 1, c2)] : List Pos).Pairwise rowMajorLT := by
    rw [List.pairwise_cons]
    refine ⟨?_, by simp⟩
    intro b hb
    rw [List.mem_singleton] at hb
    subst hb
    exact Or.inl (Nat.lt_succ_self c1)
  have hleft : (if c2 > 0 then [(c1, c2 - 1)] else [] : List Pos).Pairwise rowMajorLT := by
    split <;> simp
  have hup : (if c1 > 0 then [(c1 - 1, c2)] else [] : List Pos).Pairwise rowMajorLT := by
    split <;> simp
  unfold neighboursRowMajor
  simp only
  rw [List.pairwise_append]
  refine ⟨?_, hlast, ?_⟩
  · rw [List.pairwise_append]
    refine ⟨hup, hleft, ?_⟩
    intro a ha b hb
    split at ha
    · split at hb
      · rw [List.mem_singleton] at ha hb
        subst ha; subst hb
        exact Or.inl (by simp only; omega)
      · simp at hb
    · simp at ha
  · intro a ha b hb
    have hb' : b = (c1, c2 + 1) ∨ b = (c1 + 1, c2) := by simpa using hb
    rw [List.mem_append] at ha
    rcases ha with ha | ha
    · split at ha
      · rw [List.mem_singleton] at ha
        subst ha
        rcases hb' with rfl | rfl <;> exact Or.inl (by simp only; omega)
      · simp at ha
    · split at ha
      · rw [List.mem_singleton] at ha
        subst ha
        rcases hb' with rfl | rfl <;>
          first
            | exact Or.inl (by simp only; omega)
            | exact Or.inr ⟨rfl, by simp only; omega⟩
      · simp at ha

/-! ## The record of who enqueued whom -/

theorem enqueuerOf_append (l₁ l₂ : List (Pos × Pos)) (p : Pos) :
    enqueuerOf (l₁ ++ l₂) p =
      match enqueuerOf l₁ p with
      | some x => some x
      | none => enqueuerOf l₂ p := by
  unfold enqueuerOf
  rw [List.find?_append]
  cases List.find? (fun x => decide (x.1 = p)) l₁ <;> rfl

theorem enqueuerOf_map (l : List Pos) (c p : Pos) :
    enqueuerOf (l.map (fun q => (q, c))) p = if p ∈ l then some c else none := by
  induction l with
  | nil => rfl
  | cons a l ih =>
    unfold enqueuerOf at ih ⊢
    simp only [List.map_cons, List.find?_cons]
    by_cases hap : a = p
    · subst hap
      simp
    · have hpa : ¬ p = a := fun h => hap h.symm
      simp only [hap, decide_False, List.mem_cons, hpa, false_or]
      exact ih

/-! ## The search as a breadth-first search -/

theorem isFinite_iff {g : Grid} {p : Pos} :
    isFinite g p = true ↔ ∃ d, distanceOf g p = some d := by
  unfold isFinite
  cases distanceOf g p <;> simp

theorem isFinite_eq_false_iff {g : Grid} {p : Pos} :
    isFinite g p = false ↔ distanceOf g p = none := by
  unfold isFinite
  cases distanceOf g p <;> simp

/-- Every finite distance is at most one more than that of the closest
unvisited cell. -/
theorem SearchInv.distance_le {g0 : Grid} {s e : Pos} {g : Grid} {u v : List Pos}
    (h : SearchInv g0 s e g u v) {c : Pos} {d : Nat} (hcu : c ∈ u)
    (hd : distanceOf g c = some d) {p : Pos} {dp : Nat} (hp : distanceOf g p = some dp) :
    dp ≤ d + 1 := by
  cases hprev : previousOf g p with
  | none =>
    have := h.root p dp hp hprev
    subst this
    rw [h.start] at hp
    simp only [Option.some.injEq] at hp
    omega
  | some q =>
    obtain ⟨hq, _, dq, h1, h2⟩ := h.prev p q hprev
    have := h.order.below q hq c hcu
    rw [hd, h1] at this
    simp only [distLT, decide_eq_false_iff_not, not_lt] at this
    rw [hp] at h2
    simp only [Option.some.injEq] at h2
    omega

theorem SearchInv.relaxed_iff {g0 : Grid} {s e : Pos} {g : Grid} {u v : List Pos}
    (h : SearchInv g0 s e g u v) {c : Pos} {d : Nat} (hcu : c ∈ u)
    (hd : distanceOf g c = some d) (p : Pos) :
    Relaxed g0 g c d p ↔ Hop g0 c p ∧ distanceOf g p = none := by
  constructor
  · rintro ⟨hhop, _, hlt⟩
    refine ⟨hhop, ?_⟩
    cases hp : distanceOf g p with
    | none => rfl
    | some dp =>
      have := h.distance_le hcu hd hp
      rw [hp] at hlt
      simp only [distLT, decide_eq_true_eq] at hlt
      omega
  · rintro ⟨hhop, hp⟩
    refine ⟨hhop, ?_, by rw [hp]; rfl⟩
    cases hv : isVisitedAt g p with
    | false => rfl
    | true =>
      obtain ⟨dp, hdp⟩ := h.order.finite p (h.visitedIn p hv)
      rw [hp] at hdp
      cases hdp

theorem SearchInv.previousOf_none {g0 : Grid} {s e : Pos} {g : Grid} {u v : List Pos}
    (h : SearchInv g0 s e g u v) {p : Pos} (hp : distanceOf g p = none) :
    previousOf g p = none := by
  cases hprev : previousOf g p with
  | none => rfl
  | some q =>
    obtain ⟨_, _, dq, _, h2⟩ := h.prev p q hprev
    rw [hp] at h2
    cases h2

theorem mem_freshNeighbours {g0 : Grid} {discovered : List Pos} {c p : Pos} :
    p ∈ freshNeighbours g0 discovered c ↔ Hop g0 c p ∧ p ∉ discovered := by
  unfold freshNeighbours Hop
  rw [List.mem_filter, mem_neighboursRowMajor]
  simp only [Bool.and_eq_true, decide_eq_true_eq, Bool.not_eq_true', decide_eq_false_iff_not]
  constructor
  · rintro ⟨h1, ⟨h2, h3⟩, h4⟩
    exact ⟨⟨h1, h2, h3⟩, h4⟩
  · rintro ⟨⟨h1, h2, h3⟩, h4⟩
    exact ⟨h1, ⟨h2, h3⟩, h4⟩

theorem pairwise_freshNeighbours (g0 : Grid) (discovered : List Pos) (c : Pos) :
    (freshNeighbours g0 discovered c).Pairwise rowMajorLT :=
  (pairwise_neighboursRowMajor c).filter _

theorem SimInv.sim_step {g0 : Grid} (h0 : FreshGrid g0) {s e : Pos} {g g2 : Grid}
    {u v rest q' discovered : List Pos} {enq : List (Pos × Pos)} {order : List Pos}
    {c : Pos} {d : Nat}
    (h : SimInv g0 s e g u v (c :: q') discovered enq order)
    (hs : sortNodesByDistance g u = c :: rest)
    (hd : distanceOf g c = some d) (hce : c ≠ e)
    (hu : updateUnvisitedNeighbors c (markVisited g c) = .ok g2) :
    SimInv g0 s e g2 rest (v ++ [c]) (q' ++ freshNeighbours g0 discovered c)
      (discovered ++ freshNeighbours g0 discovered c)
      (enq ++ (freshNeighbours g0 discovered c).map (fun p => (p, c))) (order ++ [c]) := by
  have hinv := h.inv
  have hinv2 := hinv.search_step h0 hs hd hce hu
  obtain ⟨g2', hu', _, hR⟩ := updateUnvisitedNeighbors_fresh h0 hinv.frame hd
  rw [hu] at hu'
  simp only [Except.ok.injEq] at hu'
  subst hu'
  have hperm := perm_sortNodesByDistance g u
  rw [hs] at hperm
  have hcu : c ∈ u := hperm.mem_iff.mp (by simp)
  have hrel := hinv.relaxed_iff hcu hd
  -- the cells enqueued are the cells relaxed
  have hfresh : ∀ p, p ∈ freshNeighbours g0 discovered c ↔ Relaxed g0 g c d p := by
    intro p
    rw [mem_freshNeighbours, hrel, h.disc, ← isFinite_eq_false_iff]
    cases isFinite g p <;> simp
  have hdist2 : ∀ p, p ∈ freshNeighbours g0 discovered c → distanceOf g2 p = some (d + 1) :=
    fun p hp => ((hR p).1 ((hfresh p).mp hp)).1
  have hdist2' : ∀ p, p ∉ freshNeighbours g0 discovered c →
      distanceOf g2 p = distanceOf g p :=
    fun p hp => ((hR p).2 (fun hr => hp ((hfresh p).mpr hr))).1
  have hprev2 : ∀ p, p ∈ freshNeighbours g0 discovered c → previousOf g2 p = some c :=
    fun p hp => ((hR p).1 ((hfresh p).mp hp)).2
  have hprev2' : ∀ p, p ∉ freshNeighbours g0 discovered c →
      previousOf g2 p = previousOf g p :=
    fun p hp => ((hR p).2 (fun hr => hp ((hfresh p).mpr hr))).2
  have hfresh_inf : ∀ p, p ∈ freshNeighbours g0 discovered c → distanceOf g p = none :=
    fun p hp => ((hrel p).mp ((hfresh p).mp hp)).2
  have hfin_notfresh : ∀ p, isFinite g p = true → p ∉ freshNeighbours g0 discovered c := by
    intro p hp hmem
    rw [isFinite_iff] at hp
    obtain ⟨dp, hdp⟩ := hp
    rw [hfresh_inf p hmem] at hdp
    cases hdp
  have hfin2 : ∀ p, isFinite g2 p = true ↔
      (isFinite g p = true ∨ p ∈ freshNeighbours g0 discovered c) := by
    intro p
    by_cases hp : p ∈ freshNeighbours g0 discovered c
    · simp only [hp, or_true, iff_true]
      rw [isFinite_iff]
      exact ⟨_, hdist2 p hp⟩
    · simp only [hp, or_false]
      unfold isFinite
      rw [hdist2' p hp]
  -- the rest of the sorted array
  have hrest : rest = q' ++ (getAllNodes g0).filter (fun p => !isFinite g p) := by
    have := h.sorted_eq
    rw [hs, List.cons_append, List.cons.injEq] at this
    exact this.2
  have hq'fin : ∀ p ∈ q', isFinite g p = true := fun p hp =>
    h.queue_finite p (by simp [hp])
  have hq'fin2 : ∀ p ∈ q', isFinite g2 p = true := fun p hp =>
    (hfin2 p).mpr (Or.inl (hq'fin p hp))
  have hnew : ((getAllNodes g0).filter (fun p => !isFinite g p)).filter (isFinite g2) =
      freshNeighbours g0 discovered c := by
    apply eq_of_pairwise_rowMajorLT
    · exact ((pairwise_getAllNodes g0).filter _).filter _
    · exact pairwise_freshNeighbours g0 discovered c
    · intro p
      rw [List.mem_filter, List.mem_filter, hfin2]
      constructor
      · rintro ⟨⟨_, hinf⟩, hfin | hfr⟩
        · rw [hfin] at hinf
          simp at hinf
        · exact hfr
      · intro hfr
        have hgrid : p ∈ getAllNodes g0 := ((hfresh p).mp hfr).1.2.1
        have hinf : isFinite g p = false := isFinite_eq_false_iff.mpr (hfresh_inf p hfr)
        exact ⟨⟨hgrid, by simp [hinf]⟩, Or.inr hfr⟩
  have hold : ((getAllNodes g0).filter (fun p => !isFinite g p)).filter
      (fun p => !isFinite g2 p) = (getAllNodes g0).filter (fun p => !isFinite g2 p) := by
    rw [List.filter_filter]
    apply List.filter_congr
    intro p _
    cases hf2 : isFinite g2 p with
    | true => simp
    | false =>
      cases hf : isFinite g p with
      | false => simp
      | true =>
        have := (hfin2 p).mpr (Or.inl hf)
        rw [hf2] at this
        cases this
  have hsortedg := pairwise_sortNodesByDistance g u
  rw [hs, List.pairwise_cons, hrest, List.pairwise_append] at hsortedg
  refine ⟨hinv2, by rw [h.order_eq], ?_, ?_, ?_, ?_, ?_⟩
  · -- the next sort
    rw [sortNodesByDistance_eq_filter g2 rest, hrest, List.filter_append, List.filter_append,
      hnew, hold, List.filter_eq_self.mpr hq'fin2]
    · have : List.filter (fun p => !isFinite g2 p) q' = [] := by
        rw [List.filter_eq_nil_iff]
        intro a ha
        simp [hq'fin2 a ha]
      rw [this, List.nil_append, List.append_assoc]
    · rw [hrest, List.filter_append, hnew, List.filter_eq_self.mpr hq'fin2,
        List.pairwise_append]
      refine ⟨?_, ?_, ?_⟩
      · refine List.Pairwise.imp_of_mem ?_ hsortedg.2.1
        intro a b ha hb hab
        unfold DistLE at hab ⊢
        rw [hdist2' a (hfin_notfresh a (hq'fin a ha)),
          hdist2' b (hfin_notfresh b (hq'fin b hb))]
        exact hab
      · refine List.Pairwise.imp_of_mem ?_ (pairwise_freshNeighbours g0 discovered c)
        intro a b ha hb _
        unfold DistLE
        rw [hdist2 a ha, hdist2 b hb]
        exact distLT_irrefl _
      · intro a ha b hb
        unfold DistLE
        rw [hdist2 b hb, hdist2' a (hfin_notfresh a (hq'fin a ha))]
        obtain ⟨da, hda⟩ := isFinite_iff.mp (hq'fin a ha)
        rw [hda]
        have := hinv.distance_le hcu hd hda
        simp only [distLT, decide_eq_false_iff_not, not_lt]
        exact this
  · intro p hp
    rw [List.mem_append] at hp
    rcases hp with hp | hp
    · exact hq'fin2 p hp
    · exact (hfin2 p).mpr (Or.inr hp)
  · intro p
    rw [List.mem_append, hfin2, h.disc]
  · intro p
    rw [enqueuerOf_append, enqueuerOf_map, h.enq_eq]
    by_cases hp : p ∈ freshNeighbours g0 discovered c
    · rw [hinv.previousOf_none (hfresh_inf p hp), hprev2 p hp]
      simp [hp]
    · rw [hprev2' p hp]
      cases previousOf g p <;> simp [hp]
  · -- the order of discovery
    have hprev_keep : ∀ a pa, previousOf g a = some pa → previousOf g2 a = some pa := by
      intro a pa ha
      obtain ⟨_, _, dq, _, h2⟩ := hinv.prev a pa ha
      rw [hprev2' a (hfin_notfresh a (isFinite_iff.mpr ⟨_, h2⟩))]
      exact ha
    have hmono : ∀ a b, DiscOrder g s v a b → DiscOrder g2 s (v ++ [c]) a b := by
      rintro a b (ha | ⟨pa, pb, h1, h2, h3⟩)
      · exact Or.inl ha
      · refine Or.inr ⟨pa, pb, hprev_keep a pa h1, hprev_keep b pb h2, ?_⟩
        rcases h3 with h3 | h3
        · exact Or.inl (h3.trans (List.sublist_append_left v [c]))
        · exact Or.inr h3
    have hD : v ++ [c] ++ (q' ++ freshNeighbours g0 discovered c) =
        (v ++ c :: q') ++ freshNeighbours g0 discovered c := by simp
    rw [hD, List.pairwise_append]
    refine ⟨h.disc_order.imp (fun {a b} hab => hmono a b hab), ?_, ?_⟩
    · refine List.Pairwise.imp_of_mem ?_ (pairwise_freshNeighbours g0 discovered c)
      intro a b ha hb hab
      exact Or.inr ⟨c, c, hprev2 a ha, hprev2 b hb, Or.inr ⟨rfl, hab⟩⟩
    · intro a ha b hb
      by_cases has : a = s
      · exact Or.inl has
      · have hafin : isFinite g a = true := by
          rw [List.mem_append] at ha
          rcases ha with ha | ha
          · exact isFinite_iff.mpr (hinv.order.finite a ha)
          · exact h.queue_finite a ha
        obtain ⟨da, hda⟩ := isFinite_iff.mp hafin
        cases hpa : previousOf g a with
        | none => exact absurd (hinv.root a da hda hpa) has
        | some pa =>
          obtain ⟨hpav, _, _⟩ := hinv.prev a pa hpa
          refine Or.inr ⟨pa, c, hprev_keep a pa hpa, hprev2 b hb, Or.inl ?_⟩
          exact (List.singleton_sublist.mpr hpav).append (List.Sublist.refl [c])

theorem specBfsLoop_nil (fuel : Nat) (g : Grid) (e : Pos) (discovered : List Pos)
    (enq : List (Pos × Pos)) (order : List Pos) :
    specBfsLoop fuel g e [] discovered enq order = some (order, enq) := by
  cases fuel <;> rfl

theorem SimInv.sim_init {g0 : Grid} (h0 : FreshGrid g0) {s : Pos} (hs : s ∈ getAllNodes g0)
    (e : Pos) :
    SimInv g0 s e (modifyNode g0 s (fun n => { n with distance := some 0 }))
      (getAllNodes g0) [] [s] [s] [] [] := by
  have hinv := SearchInv.search_init h0 hs e
  have hprev : ∀ p, previousOf (modifyNode g0 s (fun n => { n with distance := some 0 })) p
      = none := by
    intro p
    cases hp : previousOf (modifyNode g0 s (fun n => { n with distance := some 0 })) p with
    | none => rfl
    | some q =>
      have := (hinv.prev p q hp).1
      simp at this
  have hfin : ∀ p, isFinite (modifyNode g0 s (fun n => { n with distance := some 0 })) p
      = true ↔ p = s := by
    intro p
    rw [isFinite_iff]
    constructor
    · rintro ⟨d, hd⟩
      exact hinv.root p d hd (hprev p)
    · rintro rfl
      exact ⟨0, hinv.start⟩
  have hfilter : (getAllNodes g0).filter
      (isFinite (modifyNode g0 s (fun n => { n with distance := some 0 }))) = [s] := by
    apply eq_of_pairwise_rowMajorLT
    · exact (pairwise_getAllNodes g0).filter _
    · simp
    · intro p
      rw [List.mem_filter, hfin, List.mem_singleton]
      constructor
      · exact fun h => h.2
      · rintro rfl
        exact ⟨hs, rfl⟩
  refine ⟨hinv, rfl, ?_, ?_, ?_, ?_, by simp⟩
  · rw [sortNodesByDistance_eq_filter, hfilter]
    rw [hfilter]
    simp
  · intro p hp
    rw [List.mem_singleton] at hp
    exact (hfin p).mpr hp
  · intro p
    rw [List.mem_singleton, hfin]
  · intro p
    rw [hprev p]
    rfl

theorem discOrder_mono {g g' : Grid} {s : Pos} {v v' : List Pos}
    (hprev : ∀ p, previousOf g' p = previousOf g p) (hsub : v.Sublist v') {a b : Pos}
    (h : DiscOrder g s v a b) : DiscOrder g' s v' a b := by
  rcases h with h | ⟨pa, pb, h1, h2, h3⟩
  · exact Or.inl h
  · refine Or.inr ⟨pa, pb, by rw [hprev]; exact h1, by rw [hprev]; exact h2, ?_⟩
    rcases h3 with h3 | h3
    · exact Or.inl (h3.trans hsub)
    · exact Or.inr h3

/-- The loop of `dijkstra` and the loop of the breadth-first search, started
in related states, return the same sequence and agree on predecessors. -/
theorem dijkstraLoop_simulates {g0 : Grid} (h0 : FreshGrid g0) (s e : Pos) (fuel : Nat) :
    ∀ (fuelB : Nat) (g : Grid) (u v queue discovered : List Pos) (enq : List (Pos × Pos))
      (order : List Pos),
      SimInv g0 s e g u v queue discovered enq order → u.length ≤ fuel → u.length ≤ fuelB →
      ∃ visited g' enq', dijkstraLoop fuel g u v e = .ok (visited, g') ∧
        specBfsLoop fuelB g0 e queue discovered enq order = some (visited, enq') ∧
        (∀ p, enqueuerOf enq' p = previousOf g' p) ∧
        visited.Pairwise (DiscOrder g' s visited) := by
  induction fuel with
  | zero =>
    intro fuelB g u v queue discovered enq order h hfuel _
    have hu : u = [] := List.length_eq_zero.mp (Nat.le_zero.mp hfuel)
    subst hu
    have hq : queue = [] := by
      have := h.sorted_eq
      simp only [sortNodesByDistance] at this
      exact (List.append_eq_nil.mp this.symm).1
    subst hq
    refine ⟨v, g, enq, rfl, ?_, h.enq_eq, ?_⟩
    · rw [specBfsLoop_nil, h.order_eq]
    · simpa using h.disc_order
  | succ fuel ih =>
    intro fuelB g u v queue discovered enq order h hfuel hfuelB
    unfold dijkstraLoop
    cases hs : sortNodesByDistance g u with
    | nil =>
      have hq : queue = [] := by
        have := h.sorted_eq
        rw [hs] at this
        exact (List.append_eq_nil.mp this.symm).1
      subst hq
      refine ⟨v, g, enq, rfl, ?_, h.enq_eq, ?_⟩
      · rw [specBfsLoop_nil, h.order_eq]
      · simpa using h.disc_order
    | cons c rest =>
      simp only
      have hperm := perm_sortNodesByDistance g u
      rw [hs] at hperm
      have hulen : u.length = rest.length + 1 := by
        have := hperm.length_eq
        simpa using this.symm
      cases queue with
      | nil =>
        have hc : distanceOf g c = none := by
          have := h.sorted_eq
          rw [hs, List.nil_append] at this
          have hmem : c ∈ (getAllNodes g0).filter (fun p => !isFinite g p) := by
            rw [← this]; simp
          rw [List.mem_filter] at hmem
          exact distanceOf_eq_none_of_not_isFinite hmem.2
        rw [hc]
        refine ⟨v, g, enq, rfl, ?_, h.enq_eq, ?_⟩
        · rw [specBfsLoop_nil, h.order_eq]
        · simpa using h.disc_order
      | cons c' q' =>
        have hcc : c = c' := by
          have := h.sorted_eq
          rw [hs, List.cons_append, List.cons.injEq] at this
          exact this.1
        subst hcc
        obtain ⟨d, hd⟩ := isFinite_iff.mp (h.queue_finite c (by simp))
        rw [hd]
        simp only
        obtain ⟨fb, rfl⟩ : ∃ fb, fuelB = fb + 1 := ⟨fuelB - 1, by omega⟩
        by_cases hce : c = e
        · rw [if_pos hce]
          subst hce
          refine ⟨v ++ [c], markVisited g c, enq, rfl, ?_, ?_, ?_⟩
          · simp [specBfsLoop, h.order_eq]
          · intro p
            rw [previousOf_markVisited]
            exact h.enq_eq p
          · have hsub : (v ++ [c]).Sublist (v ++ c :: q') :=
              List.Sublist.append (List.Sublist.refl v)
                (List.Sublist.cons₂ c (List.nil_sublist q'))
            refine (h.disc_order.sublist hsub).imp ?_
            intro a b hab
            exact discOrder_mono (fun p => previousOf_markVisited g c p)
              (List.sublist_append_left v [c]) hab
        · rw [if_neg hce]
          obtain ⟨g2, hu, _, _⟩ := updateUnvisitedNeighbors_fresh h0 h.inv.frame hd
          have hu' : updateUnvisitedNeighbors c
              (modifyNode g c (fun n => { n with isVisited := true })) = .ok g2 := hu
          rw [hu']
          simp only
          have hstep := h.sim_step h0 hs hd hce hu
          obtain ⟨visited, g', enq', h1, h2, h3, h4⟩ :=
            ih fb g2 rest (v ++ [c]) _ _ _ _ hstep (by omega) (by omega)
          refine ⟨visited, g', enq', h1, ?_, h3, h4⟩
          rw [← h2]
          simp [specBfsLoop, hce]

/-- On a fresh rectangular grid the search and the breadth-first search of the
specification return the same sequence and agree on predecessors; the
sequence is in order of discovery. -/
theorem dijkstra_simulates {g0 : Grid} (h0 : FreshGrid g0) {s : Pos}
    (hs : s ∈ getAllNodes g0) (e : Pos) :
    ∃ visited g' enq', dijkstra g0 s e = .ok (visited, g') ∧
      specBfs g0 s e = some (visited, enq') ∧
      (∀ p, enqueuerOf enq' p = previousOf g' p) ∧
      visited.Pairwise (DiscOrder g' s visited) := by
  unfold dijkstra specBfs cellCount
  exact dijkstraLoop_simulates h0 s e _ _ _ _ _ _ _ _ _ (SimInv.sim_init h0 hs e)
    (le_refl _) (le_refl _)

theorem hopChain_tail_nonwall {g : Grid} {l : List Pos} (h : HopChain g l) :
    ∀ x ∈ l.tail, isWallAt g x = false := by
  induction l with
  | nil => simp
  | cons a l ih =>
    cases l with
    | nil => simp
    | cons b t =>
      intro x hx
      simp only [List.tail_cons, List.mem_cons] at hx
      rcases hx with rfl | hx
      · exact h.1.2.2
      · exact ih h.2 x (by simpa using hx)

theorem walled_row_zero {n : Nat} {p : Pos} (h : Walk grid3x3Walled (0, 0) n p) :
    p.1 = 0 := by
  induction h with
  | start => rfl
  | hop _ hpq ih =>
    rename_i m p q _
    obtain ⟨hadj, hq, hw⟩ := hpq
    have hq' := (mem_getAllNodes_fresh (g := grid3x3Walled) (by decide)).mp hq
    have hlen : grid3x3Walled.length = 3 := by decide
    have hwid : gridWidth grid3x3Walled = 3 := by decide
    rw [hlen, hwid] at hq'
    unfold Adjacent at hadj
    obtain ⟨q1, q2⟩ := q
    simp only at hadj hq' ih ⊢
    by_contra hne
    have hq1 : q1 = 1 := by omega
    subst hq1
    have hq2 : q2 = 0 ∨ q2 = 1 ∨ q2 = 2 := by omega
    rcases hq2 with rfl | rfl | rfl <;> revert hw <;> decide

/-- C1: on a fresh rectangular grid searched from a start cell of the grid,
`dijkstra` returns, and every cell of the returned sequence has a finite
`distance` that is the minimum number of hops over all paths from the start to
it: some path has that many hops, and no path has fewer. -/
theorem dijkstra_distance_minimal (g0 : Grid) (s e : Pos) (h0 : FreshGrid g0)
    (hs : s ∈ getAllNodes g0) :
    ∃ visited g', dijkstra g0 s e = .ok (visited, g') ∧
      ∀ c ∈ visited, ∃ d, distanceOf g' c = some d ∧
        (∃ path, IsPath g0 s c path ∧ path.length = d + 1) ∧
        ∀ path, IsPath g0 s c path → d + 1 ≤ path.length := by
  obtain ⟨visited, g', hres, hfin⟩ := dijkstra_final h0 hs e
  refine ⟨visited, g', hres, ?_⟩
  intro c hc
  obtain ⟨d, hd⟩ := hfin.finite c hc
  refine ⟨d, hd, isPath_of_walk (hfin.walk_of_distance d c hd), ?_⟩
  intro path hpath
  obtain ⟨d', hd', hle⟩ := hfin.lower c hc _ (walk_of_isPath hpath)
  rw [hd] at hd'
  simp only [Option.some.injEq] at hd'
  have hne : path ≠ [] := by
    intro hnil
    have := hpath.1
    rw [hnil] at this
    simp at this
  have := List.length_pos.mpr hne
  omega

theorem dijkstra_distance_minimal_witness :
    FreshGrid grid3x3 ∧ (0, 0) ∈ getAllNodes grid3x3 ∧
    ∃ visited g', dijkstra grid3x3 (0, 0) (2, 2) = .ok (visited, g') ∧
      ∀ c ∈ visited, ∃ d, distanceOf g' c = some d ∧
        (∃ path, IsPath grid3x3 (0, 0) c path ∧ path.length = d + 1) ∧
        ∀ path, IsPath grid3x3 (0, 0) c path → d + 1 ≤ path.length :=
  ⟨by decide, by decide,
    dijkstra_distance_minimal grid3x3 (0, 0) (2, 2) (by decide) (by decide)⟩

/-- C2: on a fresh rectangular grid, when the end cell cannot be reached from
the start, `dijkstra` returns a sequence that holds exactly the cells
reachable from the start, each once, and the end cell is not in it. -/
theorem dijkstra_unreachable_end (g0 : Grid) (s e : Pos) (h0 : FreshGrid g0)
    (hs : s ∈ getAllNodes g0) (hun : ¬ Reachable g0 s e) :
    ∃ visited g', dijkstra g0 s e = .ok (visited, g') ∧
      (∀ c, c ∈ visited ↔ Reachable g0 s c) ∧ visited.Nodup ∧ e ∉ visited := by
  obtain ⟨visited, g', hres, hfin⟩ := dijkstra_final h0 hs e
  have hsound : ∀ c ∈ visited, Reachable g0 s c := by
    intro c hc
    obtain ⟨d, hd⟩ := hfin.finite c hc
    exact reachable_iff_walk.mpr ⟨d, hfin.walk_of_distance d c hd⟩
  have hend : e ∉ visited := fun he => hun (hsound e he)
  refine ⟨visited, g', hres, ?_, hfin.nodup, hend⟩
  intro c
  constructor
  · exact hsound c
  · intro hc
    obtain ⟨n, hn⟩ := reachable_iff_walk.mp hc
    rcases hfin.exit with ⟨_, hall⟩ | hlast
    · exact hall n c hn
    · exact absurd (List.mem_of_getLast?_eq_some hlast) hend

theorem dijkstra_unreachable_end_witness :
    FreshGrid grid3x3Walled ∧ (0, 0) ∈ getAllNodes grid3x3Walled ∧
    ¬ Reachable grid3x3Walled (0, 0) (2, 2) ∧
    (∃ visited g', dijkstra grid3x3Walled (0, 0) (2, 2) = .ok (visited, g') ∧
      (∀ c, c ∈ visited ↔ Reachable grid3x3Walled (0, 0) c) ∧ visited.Nodup ∧
      (2, 2) ∉ visited) ∧
    ∃ g', dijkstra grid3x3Walled (0, 0) (2, 2) = .ok ([(0, 0), (0, 1), (0, 2)], g') :=
  have hun : ¬ Reachable grid3x3Walled (0, 0) (2, 2) := fun h => by
    obtain ⟨n, hn⟩ := reachable_iff_walk.mp h
    exact absurd (walled_row_zero hn) (by decide)
  ⟨by decide, by decide, hun,
    dijkstra_unreachable_end grid3x3Walled (0, 0) (2, 2) (by decide) (by decide) hun,
    ⟨_, rfl⟩⟩

/-- C3: on a fresh rectangular grid, for every cell `t` of the sequence that
`dijkstra` returns, `getNodesInShortestPathOrder(t)` returns a list that begins
with the start, ends with `t`, moves between orthogonally adjacent cells,
holds only non-wall cells after its first, and has `t.distance + 1` cells; for
the start it returns the list of the start alone. -/
theorem shortestPath_of_visited (g0 : Grid) (s e : Pos) (h0 : FreshGrid g0)
    (hs : s ∈ getAllNodes g0) :
    ∃ visited g', dijkstra g0 s e = .ok (visited, g') ∧
      (∀ t ∈ visited, ∃ d path, distanceOf g' t = some d ∧
        getNodesInShortestPathOrder g' t = .ok path ∧
        path.head? = some s ∧ path.getLast? = some t ∧ HopChain g0 path ∧
        (∀ x ∈ path.tail, isWallAt g0 x = false) ∧ path.length = d + 1) ∧
      getNodesInShortestPathOrder g' s = .ok [s] := by
  obtain ⟨visited, g', hres, hfin⟩ := dijkstra_final h0 hs e
  refine ⟨visited, g', hres, ?_, ?_⟩
  · intro t ht
    obtain ⟨d, hd⟩ := hfin.finite t ht
    obtain ⟨l, hrun, hlen, hhead, hlast, hchain, _, _⟩ := hfin.path_of_distance hd
    exact ⟨d, l, hd, hrun, hhead, hlast, hchain, hopChain_tail_nonwall hchain, hlen⟩
  · obtain ⟨l, hrun, hlen, hhead, _, _, _, _⟩ := hfin.path_of_distance hfin.start
    rw [hrun]
    cases l with
    | nil => simp at hlen
    | cons a t =>
      cases t with
      | nil =>
        simp only [List.head?_cons, Option.some.injEq] at hhead
        rw [hhead]
      | cons b t' => simp at hlen

theorem shortestPath_of_visited_witness :
    FreshGrid grid3x3 ∧ (0, 0) ∈ getAllNodes grid3x3 ∧
    ∃ visited g', dijkstra grid3x3 (0, 0) (2, 2) = .ok (visited, g') ∧
      (∀ t ∈ visited, ∃ d path, distanceOf g' t = some d ∧
        getNodesInShortestPathOrder g' t = .ok path ∧
        path.head? = some (0, 0) ∧ path.getLast? = some t ∧ HopChain grid3x3 path ∧
        (∀ x ∈ path.tail, isWallAt grid3x3 x = false) ∧ path.length = d + 1) ∧
      getNodesInShortestPathOrder g' (0, 0) = .ok [(0, 0)] :=
  ⟨by decide, by decide,
    shortestPath_of_visited grid3x3 (0, 0) (2, 2) (by decide) (by decide)⟩

/-- C4: on a fresh rectangular grid without wall cells, with start and end in
the grid, `dijkstra` returns and `getNodesInShortestPathOrder(end)` is a path
whose number of hops (its number of cells minus one) is the Manhattan
distance of start and end. -/
theorem shortestPath_manhattan (g0 : Grid) (s e : Pos) (h0 : FreshGrid g0)
    (hw : ∀ p ∈ getAllNodes g0, isWallAt g0 p = false)
    (hs : s ∈ getAllNodes g0) (he : e ∈ getAllNodes g0) :
    ∃ visited g' path, dijkstra g0 s e = .ok (visited, g') ∧
      getNodesInShortestPathOrder g' e = .ok path ∧
      path.length = manhattan s e + 1 := by
  obtain ⟨visited, g', hres, hfin⟩ := dijkstra_final h0 hs e
  have hwalk := walk_manhattan h0 hw hs (manhattan s e) e he rfl
  have hev : e ∈ visited := by
    rcases hfin.exit with ⟨_, hall⟩ | hlast
    · exact hall _ e hwalk
    · exact List.mem_of_getLast?_eq_some hlast
  obtain ⟨d, hd, hle⟩ := hfin.lower e hev _ hwalk
  have hge := manhattan_le_of_walk (hfin.walk_of_distance d e hd)
  obtain ⟨l, hrun, hlen, _⟩ := hfin.path_of_distance hd
  exact ⟨visited, g', l, hres, hrun, by omega⟩

theorem shortestPath_manhattan_witness :
    FreshGrid grid3x3 ∧ (∀ p ∈ getAllNodes grid3x3, isWallAt grid3x3 p = false) ∧
    (0, 0) ∈ getAllNodes grid3x3 ∧ (2, 2) ∈ getAllNodes grid3x3 ∧
    (∃ visited g' path, dijkstra grid3x3 (0, 0) (2, 2) = .ok (visited, g') ∧
      getNodesInShortestPathOrder g' (2, 2) = .ok path ∧
      path.length = manhattan (0, 0) (2, 2) + 1) ∧
    manhattan (0, 0) (2, 2) = 4 :=
  ⟨by decide, by decide, by decide, by decide,
    shortestPath_manhattan grid3x3 (0, 0) (2, 2) (by decide) (by decide) (by decide)
      (by decide),
    by decide⟩

/-- C6, as the claim states it, fails: on the fresh 1×3 grid searched from
(0,1) towards (0,0), the cell (0,2) is not in the returned sequence, yet
`getNodesInShortestPathOrder` returns the two cells (0,1), (0,2) for it, not
the single cell (0,2). -/
theorem unvisited_target_counterexample :
    FreshGrid grid1x3 ∧ (0, 1) ∈ getAllNodes grid1x3 ∧ (0, 0) ∈ getAllNodes grid1x3 ∧
    ∃ visited g', dijkstra grid1x3 (0, 1) (0, 0) = .ok (visited, g') ∧
      (0, 2) ∈ getAllNodes grid1x3 ∧ (0, 2) ∉ visited ∧
      getNodesInShortestPathOrder g' (0, 2) = .ok [(0, 1), (0, 2)] ∧
      getNodesInShortestPathOrder g' (0, 2) ≠ .ok [(0, 2)] :=
  ⟨by decide, by decide, by decide, [(0, 1), (0, 0)], _, rfl, by decide, by decide, rfl,
    by
      intro h
      have h2 : (Except.ok [(0, 1), (0, 2)] : Except Fault (List Pos)) = .ok [(0, 2)] := h
      simp at h2⟩

/-- C6, amended: on a fresh rectangular grid, for every cell of the grid whose
`distance` is still infinite after the search (it was neither visited nor
relaxed), the cell is not in the returned sequence, it has no `previousNode`,
and `getNodesInShortestPathOrder` returns the list of that cell alone. -/
theorem shortestPath_of_unrelaxed (g0 : Grid) (s e : Pos) (h0 : FreshGrid g0)
    (hs : s ∈ getAllNodes g0) :
    ∃ visited g', dijkstra g0 s e = .ok (visited, g') ∧
      ∀ target ∈ getAllNodes g0, distanceOf g' target = none →
        target ∉ visited ∧ previousOf g' target = none ∧
        getNodesInShortestPathOrder g' target = .ok [target] := by
  obtain ⟨visited, g', hres, hfin⟩ := dijkstra_final h0 hs e
  refine ⟨visited, g', hres, ?_⟩
  intro target ht hd
  refine ⟨?_, hfin.path_of_infinite ht hd⟩
  intro hv
  obtain ⟨d, hd'⟩ := hfin.finite target hv
  rw [hd] at hd'
  cases hd'

theorem shortestPath_of_unrelaxed_witness :
    FreshGrid grid3x3Walled ∧ (0, 0) ∈ getAllNodes grid3x3Walled ∧
    ∃ visited g', dijkstra grid3x3Walled (0, 0) (2, 2) = .ok (visited, g') ∧
      ∀ target ∈ getAllNodes grid3x3Walled, distanceOf g' target = none →
        target ∉ visited ∧ previousOf g' target = none ∧
        getNodesInShortestPathOrder g' target = .ok [target] :=
  ⟨by decide, by decide,
    shortestPath_of_unrelaxed grid3x3Walled (0, 0) (2, 2) (by decide) (by decide)⟩

/-- C7: on a fresh rectangular grid, after the search, for every cell of the
grid `getNodesInShortestPathOrder` returns: the list it returns ends with the
cell, each of its cells is the `previousNode` of the next at a strictly
smaller distance, no cell occurs twice in it, its first cell has no
`previousNode`, and that first cell is the start whenever the cell has a
`previousNode`. -/
theorem previousNode_chains_acyclic (g0 : Grid) (s e : Pos) (h0 : FreshGrid g0)
    (hs : s ∈ getAllNodes g0) :
    ∃ visited g', dijkstra g0 s e = .ok (visited, g') ∧
      ∀ p ∈ getAllNodes g0, ∃ path, getNodesInShortestPathOrder g' p = .ok path ∧
        path.getLast? = some p ∧ PredChain g' path ∧ path.Nodup ∧
        (∀ r, path.head? = some r → previousOf g' r = none) ∧
        (previousOf g' p ≠ none → path.head? = some s) := by
  obtain ⟨visited, g', hres, hfin⟩ := dijkstra_final h0 hs e
  refine ⟨visited, g', hres, ?_⟩
  intro p hp
  cases hd : distanceOf g' p with
  | none =>
    obtain ⟨hprev, hrun⟩ := hfin.path_of_infinite hp hd
    refine ⟨[p], hrun, rfl, trivial, by simp, ?_, fun h => absurd hprev h⟩
    intro r hr
    simp only [List.head?_cons, Option.some.injEq] at hr
    subst hr
    exact hprev
  | some d =>
    obtain ⟨l, hrun, _, hhead, hlast, _, hpred, hnd⟩ := hfin.path_of_distance hd
    refine ⟨l, hrun, hlast, hpred, hnd, ?_, fun _ => hhead⟩
    intro r hr
    rw [hhead] at hr
    simp only [Option.some.injEq] at hr
    subst hr
    exact hfin.previousOf_start

theorem previousNode_chains_acyclic_witness :
    FreshGrid grid3x3 ∧ (0, 0) ∈ getAllNodes grid3x3 ∧
    ∃ visited g', dijkstra grid3x3 (0, 0) (2, 2) = .ok (visited, g') ∧
      ∀ p ∈ getAllNodes grid3x3, ∃ path, getNodesInShortestPathOrder g' p = .ok path ∧
        path.getLast? = some p ∧ PredChain g' path ∧ path.Nodup ∧
        (∀ r, path.head? = some r → previousOf g' r = none) ∧
        (previousOf g' p ≠ none → path.head? = some (0, 0)) :=
  ⟨by decide, by decide,
    previousNode_chains_acyclic grid3x3 (0, 0) (2, 2) (by decide) (by decide)⟩

/-- C9: on a fresh rectangular grid, when the end cell can be reached from the
start, `dijkstra` returns a sequence whose last cell is the end and in which
the end occurs nowhere else; the cells marked `isVisited` are exactly the
cells of the sequence, and no cell has the end as its `previousNode`. -/
theorem dijkstra_early_exit (g0 : Grid) (s e : Pos) (h0 : FreshGrid g0)
    (hs : s ∈ getAllNodes g0) (hr : Reachable g0 s e) :
    ∃ visited g', dijkstra g0 s e = .ok (visited, g') ∧
      (∃ init, visited = init ++ [e] ∧ e ∉ init) ∧
      (∀ p, isVisitedAt g' p = true ↔ p ∈ visited) ∧
      ∀ p, previousOf g' p ≠ some e := by
  obtain ⟨visited, g', hres, hfin⟩ := dijkstra_final h0 hs e
  obtain ⟨n, hn⟩ := reachable_iff_walk.mp hr
  have hlast : visited.getLast? = some e := by
    rcases hfin.exit with ⟨hnot, hall⟩ | hlast
    · exact absurd (hall n e hn) hnot
    · exact hlast
  refine ⟨visited, g', hres, ⟨visited.dropLast, ?_, ?_⟩, hfin.marked, ?_⟩
  · exact (List.dropLast_append_getLast? e hlast).symm
  · have hnd := hfin.nodup
    rw [← List.dropLast_append_getLast? e hlast, List.nodup_append] at hnd
    intro hmem
    exact hnd.2.2 hmem (by simp)
  · intro p hp
    exact (hfin.prev p e hp).2.1 rfl

theorem dijkstra_early_exit_witness :
    FreshGrid grid3x3 ∧ (0, 0) ∈ getAllNodes grid3x3 ∧
    Reachable grid3x3 (0, 0) (2, 2) ∧
    ∃ visited g', dijkstra grid3x3 (0, 0) (2, 2) = .ok (visited, g') ∧
      (∃ init, visited = init ++ [(2, 2)] ∧ (2, 2) ∉ init) ∧
      (∀ p, isVisitedAt g' p = true ↔ p ∈ visited) ∧
      ∀ p, previousOf g' p ≠ some (2, 2) :=
  ⟨by decide, by decide, ⟨[(0, 0), (0, 1), (0, 2), (1, 2), (2, 2)], by decide⟩,
    dijkstra_early_exit grid3x3 (0, 0) (2, 2) (by decide) (by decide)
      ⟨[(0, 0), (0, 1), (0, 2), (1, 2), (2, 2)], by decide⟩⟩

/-- C8, as the claim states it, fails: on the fresh 3×4 grid without walls
searched from (1,1) towards (2,3), the cell (2,0) stands before the cell (1,3)
in the returned sequence, both at distance 2, although (1,3) comes before
(2,0) in row-major order; so cells of equal distance are not in row-major
order. -/
theorem ties_row_major_counterexample :
    FreshGrid grid3x4 ∧ (1, 1) ∈ getAllNodes grid3x4 ∧ (2, 3) ∈ getAllNodes grid3x4 ∧
    ∃ g', dijkstra grid3x4 (1, 1) (2, 3) =
        .ok ([(1, 1), (0, 1), (1, 0), (1, 2), (2, 1), (0, 0), (0, 2), (2, 0), (1, 3),
          (2, 2), (0, 3), (2, 3)], g') ∧
      distanceOf g' (2, 0) = some 2 ∧ distanceOf g' (1, 3) = some 2 ∧
      rowMajorLT (1, 3) (2, 0) ∧
      ¬ TiesRowMajor g' [(1, 1), (0, 1), (1, 0), (1, 2), (2, 1), (0, 0), (0, 2), (2, 0),
        (1, 3), (2, 2), (0, 3), (2, 3)] :=
  ⟨by decide, by decide, by decide, _, rfl, rfl, rfl, by decide, by
    unfold TiesRowMajor
    decide⟩

/-- C8, amended: on a fresh rectangular grid, any two cells of equal distance
stand in the returned sequence in their order of discovery: of a cell `a`
that stands before a cell `b` at the same distance, the `previousNode` stands
before the `previousNode` of `b` in the sequence, or both have the same
`previousNode` and `a` comes before `b` in row-major order. -/
theorem ties_in_discovery_order (g0 : Grid) (s e : Pos) (h0 : FreshGrid g0)
    (hs : s ∈ getAllNodes g0) :
    ∃ visited g', dijkstra g0 s e = .ok (visited, g') ∧
      visited.Pairwise (fun a b =>
        distanceOf g' a = distanceOf g' b → DiscoveredBefore g' visited a b) := by
  obtain ⟨visited, g', _, hres, _, _, hord⟩ := dijkstra_simulates h0 hs e
  obtain ⟨visited', g'', hres', hfin⟩ := dijkstra_final h0 hs e
  rw [hres] at hres'
  simp only [Except.ok.injEq, Prod.mk.injEq] at hres'
  obtain ⟨rfl, rfl⟩ := hres'
  refine ⟨visited, g', hres, ?_⟩
  have hne : visited.Pairwise (fun a b => a ≠ b) := hfin.nodup
  refine (hord.and hne).imp ?_
  rintro a b ⟨hab | hab, hneq⟩ hdist
  · subst hab
    rw [hfin.start] at hdist
    have hb : b = a := by
      cases hprev : previousOf g' b with
      | none => exact hfin.root b 0 hdist.symm hprev
      | some q =>
        obtain ⟨_, _, _, dq, _, h2⟩ := hfin.prev b q hprev
        rw [← hdist] at h2
        simp at h2
    exact absurd hb.symm hneq
  · exact hab

theorem ties_in_discovery_order_witness :
    FreshGrid grid3x4 ∧ (1, 1) ∈ getAllNodes grid3x4 ∧
    ∃ visited g', dijkstra grid3x4 (1, 1) (2, 3) = .ok (visited, g') ∧
      visited.Pairwise (fun a b =>
        distanceOf g' a = distanceOf g' b → DiscoveredBefore g' visited a b) :=
  ⟨by decide, by decide,
    ties_in_discovery_order grid3x4 (1, 1) (2, 3) (by decide) (by decide)⟩

/-- C10: on a fresh rectangular grid searched from a start cell of the grid,
`dijkstra` returns the sequence in which the FIFO breadth-first search of the
specification visits the cells, and the `previousNode` of every cell is the
cell that enqueued it in that search (none if no cell enqueued it). -/
theorem dijkstra_refines_specBfs (g0 : Grid) (s e : Pos) (h0 : FreshGrid g0)
    (hs : s ∈ getAllNodes g0) :
    ∃ visited g' enqueuedBy, dijkstra g0 s e = .ok (visited, g') ∧
      specBfs g0 s e = some (visited, enqueuedBy) ∧
      ∀ p, previousOf g' p = enqueuerOf enqueuedBy p := by
  obtain ⟨visited, g', enq', h1, h2, h3, _⟩ := dijkstra_simulates h0 hs e
  exact ⟨visited, g', enq', h1, h2, fun p => (h3 p).symm⟩

theorem dijkstra_refines_specBfs_witness :
    FreshGrid grid3x4 ∧ (1, 1) ∈ getAllNodes grid3x4 ∧
    (∃ visited g' enqueuedBy, dijkstra grid3x4 (1, 1) (2, 3) = .ok (visited, g') ∧
      specBfs grid3x4 (1, 1) (2, 3) = some (visited, enqueuedBy) ∧
      ∀ p, previousOf g' p = enqueuerOf enqueuedBy p) ∧
    ∃ enqueuedBy, specBfs grid3x4 (1, 1) (2, 3) =
      some ([(1, 1), (0, 1), (1, 0), (1, 2), (2, 1), (0, 0), (0, 2), (2, 0), (1, 3),
        (2, 2), (0, 3), (2, 3)], enqueuedBy) :=
  ⟨by decide, by decide,
    dijkstra_refines_specBfs grid3x4 (1, 1) (2, 3) (by decide) (by decide), _, rfl⟩

end MapAlgo
